import Mathlib

/-!
The one-billion-row aggregation pipeline (`main.go`, `utils/utils.go`).

A shallow embedding of the split / parse / reduce pipeline:

* `ConvertStringToInt64` (with the part of `strconv.ParseInt` it calls),
* `ChunkReader`, the per-chunk scanner that builds a partial aggregate map,
* the splitter goroutine and the reducer loop of `Evaluate`.

Bytes are natural numbers, Go strings and byte slices are lists of bytes,
`int64` values are integers wrapped explicitly into the 64-bit range, a Go
map is an association list read through `mapGet`, and a runtime failure
(slice bounds out of range) is the value `none`.
-/

namespace OneBRC

/-! ## Machine integers and bytes -/

/-- A byte of a Go string or of a byte slice. -/
abbrev Byte := Nat

/-- The bytes of an ASCII string literal, one byte per character. -/
def asciiBytes (s : String) : List Byte := s.toList.map Char.toNat

/-- Two's-complement wrap of an integer into the range of `int64`. -/
def wrapInt64 (x : Int) : Int :=
  (x + 9223372036854775808) % 18446744073709551616 - 9223372036854775808

/-- The values an `int64` can hold. -/
def InInt64 (x : Int) : Prop := -9223372036854775808 ≤ x ∧ x ≤ 9223372036854775807

instance (x : Int) : Decidable (InInt64 x) := by unfold InInt64; infer_instance

/-! ## `strconv.ParseInt(s, 10, 64)` of the Go standard library -/

/-- The two error kinds of `strconv`. -/
inductive NumError where
  | ErrSyntax
  | ErrRange
deriving DecidableEq, Repr

/-- The largest `uint64`. -/
def maxUint64 : Nat := 18446744073709551615

/-- In `ParseUint`: the smallest number such that `cutoff * 10 > maxUint64`. -/
def parseUintCutoff : Nat := maxUint64 / 10 + 1

/-- The helper `lower` of `strconv`: `c | ('x' - 'X')`. -/
def lower (c : Byte) : Byte := c ||| 32

/-- The digit loop of `strconv.ParseUint` for base 10 and bit size 64,
started with the accumulator `n`. It returns the value and the error. -/
def ParseUintLoop : List Byte → Nat → Nat × Option NumError
  | [], n => (n, none)
  | c :: cs, n =>
    let d? : Option Nat :=
      if 48 ≤ c ∧ c ≤ 57 then some (c - 48)
      else if 97 ≤ lower c ∧ lower c ≤ 122 then some (lower c - 97 + 10)
      else none
    match d? with
    | none => (0, some NumError.ErrSyntax)
    | some d =>
      if d ≥ 10 then (0, some NumError.ErrSyntax)
      else if n ≥ parseUintCutoff then (maxUint64, some NumError.ErrRange)
      else
        let n10 := (n * 10) % 18446744073709551616
        let n1 := (n10 + d) % 18446744073709551616
        if n1 < n10 ∨ n1 > maxUint64 then (maxUint64, some NumError.ErrRange)
        else ParseUintLoop cs n1

/-- The function `strconv.ParseUint(s, 10, 64)`. -/
def ParseUint (s : List Byte) : Nat × Option NumError :=
  if s = [] then (0, some NumError.ErrSyntax) else ParseUintLoop s 0

/-- The function `strconv.ParseInt(s, 10, 64)`: the value and the error. -/
def ParseInt (s : List Byte) : Int × Option NumError :=
  match s with
  | [] => (0, some NumError.ErrSyntax)
  | c :: rest =>
    let neg : Bool := decide (c = 45)
    let s1 := if c = 43 then rest else if c = 45 then rest else s
    match ParseUint s1 with
    | (_, some NumError.ErrSyntax) => (0, some NumError.ErrSyntax)
    | (un, _) =>
      if !neg && decide (un ≥ 9223372036854775808) then
        (9223372036854775807, some NumError.ErrRange)
      else if neg && decide (un > 9223372036854775808) then
        (-9223372036854775808, some NumError.ErrRange)
      else
        let n := wrapInt64 (un : Int)
        (if neg then wrapInt64 (-n) else n, none)

/-! ## `utils.ConvertStringToInt64` -/

/-- The function `ConvertStringToInt64`: the byte before the last one is cut
out and the rest is parsed; the parse error is discarded. The slice
expression `input[:len(input)-2]` fails at run time when the input has fewer
than two bytes, which is the result `none`. -/
def ConvertStringToInt64 (input : List Byte) : Option Int :=
  if input.length < 2 then none
  else
    let input1 := input.take (input.length - 2) ++ input.drop (input.length - 1)
    some (ParseInt input1).1

/-! ## Aggregates and maps -/

/-- Modelled from the spec: the struct `models.Weather`, whose package
`1brc/models` is not among the sources. The spec's StationAggregate has the
four integer fields minimum, maximum, sum and count; the code reads and
writes them as `Min`, `Max`, `Sum`, `Count` and assigns `int64` values to
them, so each field is an `int64`. -/
@[ext]
structure Weather where
  Min : Int
  Max : Int
  Sum : Int
  Count : Int
deriving DecidableEq, Repr

/-- A Go `map[string]Weather`: an association list, read by `mapGet`. -/
abbrev CityMap := List (List Byte × Weather)

/-- The map read `m[key]` with its `ok` flag. -/
def mapGet : CityMap → List Byte → Option Weather
  | [], _ => none
  | (k, v) :: m, key => if k = key then some v else mapGet m key

/-- The map write `m[key] = v`. -/
def mapSet : CityMap → List Byte → Weather → CityMap
  | [], key, v => [(key, v)]
  | (k, w) :: m, key, v => if k = key then (k, v) :: m else (k, w) :: mapSet m key v

/-- Equality of Go maps: the same value (or absence) at every key. -/
def MapEq (a b : CityMap) : Prop := ∀ key, mapGet a key = mapGet b key

/-- No key occurs twice, as in every Go map. -/
def NodupKeys (m : CityMap) : Prop := (m.map Prod.fst).Nodup

instance (m : CityMap) : Decidable (NodupKeys m) := by unfold NodupKeys; infer_instance

/-! ## `ChunkReader` -/

/-- The local variables of `ChunkReader`: the string builder `sb`, the result
map `res` and the current station name `city`. -/
structure ReaderState where
  sb : List Byte
  res : CityMap
  city : List Byte
deriving DecidableEq, Repr

/-- The update of an aggregate already in the result map, lines 187 to 194. -/
def updateWeather (weather : Weather) (temp : Int) : Weather :=
  let w1 : Weather := { weather with Count := wrapInt64 (weather.Count + 1) }
  let w2 : Weather := { w1 with Sum := wrapInt64 (w1.Sum + temp) }
  let w3 : Weather := if temp > w2.Max then { w2 with Max := temp } else w2
  if temp < w3.Min then { w3 with Min := temp } else w3

/-- The update of the result map with one parsed reading, lines 185 to 199:
the aggregate of the station is updated when the map has it and created
otherwise. -/
def addReading (res : CityMap) (city : List Byte) (temp : Int) : CityMap :=
  match mapGet res city with
  | some weather => mapSet res city (updateWeather weather temp)
  | none => mapSet res city ⟨temp, temp, temp, 1⟩

/-- One iteration of the byte loop of `ChunkReader`. -/
def readerStep (st : ReaderState) (char : Byte) : Option ReaderState :=
  if char = 59 then
    some { st with city := st.sb, sb := [] }
  else if char = 10 then
    if st.sb.length ≠ 0 ∧ st.city.length ≠ 0 then
      match ConvertStringToInt64 st.sb with
      | none => none
      | some temp => some { sb := [], res := addReading st.res st.city temp, city := st.city }
    else some st
  else
    some { st with sb := st.sb ++ [char] }

/-- The state in which `ChunkReader` starts. -/
def readerInit : ReaderState := { sb := [], res := [], city := [] }

/-- The function `ChunkReader`: the map it sends on the output channel, or
`none` when the conversion of a value fails at run time. -/
def ChunkReader (buf : List Byte) : Option CityMap :=
  (buf.foldlM readerStep readerInit).map ReaderState.res

/-! ## `Evaluate`: the reducer loop -/

/-- The update of a station already in the global map, lines 143 to 150. -/
def combine (weather temp : Weather) : Weather :=
  let w1 : Weather := { weather with Count := wrapInt64 (weather.Count + temp.Count) }
  let w2 : Weather := { w1 with Sum := wrapInt64 (w1.Sum + temp.Sum) }
  let w3 : Weather := if temp.Min < w2.Min then { w2 with Min := temp.Min } else w2
  if temp.Max > w3.Max then { w3 with Max := temp.Max } else w3

/-- The body of the inner loop of the reducer for one entry of a partial map. -/
def mergeEntry (cities : CityMap) (entry : List Byte × Weather) : CityMap :=
  match mapGet cities entry.1 with
  | some weather => mapSet cities entry.1 (combine weather entry.2)
  | none => mapSet cities entry.1 entry.2

/-- The inner loop of the reducer: one partial map is merged into `cities`.
Go visits the entries in an unspecified order; here it is the order of the
list. -/
def mergeMap (cities t : CityMap) : CityMap := t.foldl mergeEntry cities

/-- The reducer loop of `Evaluate`: the partial maps received on the stream
are merged, in the order of their arrival, into the initially empty map. -/
def reduceStream (stream : List CityMap) : CityMap := stream.foldl mergeMap []

/-- The aggregate of one station after one more aggregate `v` for it has been
merged by the reducer: `v` itself when the station was absent, the combine
when it was present. -/
def absorb (acc : Option Weather) (v : Weather) : Option Weather :=
  some (match acc with
    | none => v
    | some w => combine w v)

/-- The merge of two optional aggregates of one station. -/
def optCombine (a b : Option Weather) : Option Weather :=
  match b with
  | none => a
  | some v => absorb a v

/-- The aggregate of a single reading, line 198. -/
def single (temp : Int) : Weather := ⟨temp, temp, temp, 1⟩

/-- The aggregate of a list of readings taken one after the other; `none`
for no reading. -/
def aggregate (temps : List Int) : Option Weather := (temps.map single).foldl absorb none

/-- The values stored under `key` in a list of map entries. -/
def valuesAt (key : List Byte) (m : CityMap) : List Weather :=
  (m.filter (fun e => decide (e.1 = key))).map Prod.snd

/-! ## `Evaluate`: the splitter goroutine -/

/-- The call `bytes.LastIndex(s, []byte{c})`: the index of the last `c` in
`s`, or `-1`. -/
def LastIndex : List Byte → Byte → Int
  | [], _ => -1
  | x :: xs, c =>
    let r := LastIndex xs c
    if r ≠ -1 then r + 1 else if x = c then 0 else -1

/-- The read loop of the splitter. `selLen` is the length of the buffer
`selected`, `leftover` the bytes kept from the previous read and `rest` the
bytes of the file not read yet. `file.Read` fills the buffer as far as bytes
remain and reports the end of the file once none remains; for an empty buffer
it returns zero bytes without an error. The result is the list of chunks sent
and the leftover held when the loop ends; `none` when the fuel is used up. -/
def splitterLoop : Nat → Nat → List Byte → List Byte → Option (List (List Byte) × List Byte)
  | 0, _, _, _ => none
  | fuel + 1, selLen, leftover, rest =>
    if selLen ≠ 0 ∧ rest = [] then some ([], leftover)
    else
      let read := min selLen rest.length
      let selected := rest.take read
      let lastNewLineIndex := LastIndex selected 10
      let res := leftover ++ selected.take (lastNewLineIndex + 1).toNat
      let leftover1 := selected.drop (lastNewLineIndex + 1).toNat
      match splitterLoop fuel read leftover1 (rest.drop read) with
      | none => none
      | some (chunks, last) => some (res :: chunks, last)

/-- The splitter goroutine of `Evaluate` on a file with the given content,
with a buffer of `blockSize` bytes (`CHUNK_SIZE` in the source). Every read of
a buffer that is not empty takes at least one byte, so the fuel
`input.length + 1` is enough (`Splitter_total`). -/
def Splitter (blockSize : Nat) (input : List Byte) : Option (List (List Byte) × List Byte) :=
  splitterLoop (input.length + 1) blockSize [] input

/-- Where the splitter cuts the bytes just read: `lastNewLineIndex + 1`. -/
def cutPoint (selected : List Byte) : Nat := (LastIndex selected 10 + 1).toNat

/-- The chunks are read by `ChunkReader`, in the order in which they were sent;
`none` when one of the calls fails at run time. -/
def readChunks : List (List Byte) → Option (List CityMap)
  | [] => some []
  | chunk :: chunks =>
    match ChunkReader chunk with
    | none => none
    | some m =>
      match readChunks chunks with
      | none => none
      | some ms => some (m :: ms)

/-- The pipeline of `Evaluate`: split, read every chunk, reduce. The partial
maps are merged in the order of the chunks; any other order of arrival gives
the same global map (`reduceStream_perm`). The result is `none` when a worker
fails at run time. Every chunk sent is taken to be read, which needs at least
one worker (`workersStarted`). -/
def Evaluate (blockSize : Nat) (input : List Byte) : Option CityMap :=
  match Splitter blockSize input with
  | none => none
  | some (chunks, _) => (readChunks chunks).map reduceStream

/-! ## The input format -/

/-- The value of a list of decimal digits, the most significant first. -/
def decimalValue (ds : List Nat) : Nat := ds.foldl (fun n d => n * 10 + d) 0

/-- The ASCII bytes of a list of decimal digits. -/
def digitBytes (ds : List Nat) : List Byte := ds.map (fun d => d + 48)

/-- A temperature of the input format `-?[0-9]+\.[0-9]`: the sign, the digits
of the integer part and the fractional digit. -/
structure Temperature where
  neg : Bool
  intDigits : List Nat
  frac : Nat
deriving DecidableEq, Repr

/-- The text matches `-?[0-9]+\.[0-9]`: at least one integer digit, and every
digit is a decimal digit. -/
def Temperature.WellFormed (t : Temperature) : Prop :=
  t.intDigits ≠ [] ∧ (∀ d ∈ t.intDigits, d < 10) ∧ t.frac < 10

instance (t : Temperature) : Decidable t.WellFormed := by
  unfold Temperature.WellFormed; infer_instance

/-- The text of a temperature. -/
def Temperature.bytes (t : Temperature) : List Byte :=
  (if t.neg then [45] else []) ++ digitBytes t.intDigits ++ [46, t.frac + 48]

/-- The real value of a temperature multiplied by 10. -/
def Temperature.scaled (t : Temperature) : Int :=
  if t.neg then -((decimalValue t.intDigits * 10 + t.frac : Nat) : Int)
  else ((decimalValue t.intDigits * 10 + t.frac : Nat) : Int)

/-- A record of the input file: a station name and a temperature. -/
structure Record where
  name : List Byte
  temp : Temperature
deriving DecidableEq, Repr

/-- A well-formed record: the name is not empty and has neither `;` nor a
newline, and the temperature matches the format. -/
def Record.WellFormed (r : Record) : Prop :=
  r.name ≠ [] ∧ 59 ∉ r.name ∧ 10 ∉ r.name ∧ r.temp.WellFormed

instance (r : Record) : Decidable r.WellFormed := by
  unfold Record.WellFormed; infer_instance

/-- A line `<name>;<value>\n` with arbitrary bytes for the value. -/
def lineBytes (name value : List Byte) : List Byte := name ++ 59 :: (value ++ [10])

/-- The line of a record, `<name>;<value>\n`. -/
def Record.bytes (r : Record) : List Byte := lineBytes r.name r.temp.bytes

/-- The file (or chunk) made of the lines of the records, in order. -/
def encodeRecords (rs : List Record) : List Byte := (rs.map Record.bytes).flatten

/-- The scaled values of the records of one station, in file order. -/
def readingsOf (name : List Byte) (rs : List Record) : List Int :=
  (rs.filter (fun r => r.name = name)).map (fun r => r.temp.scaled)

/-- The integer `ConvertStringToInt64` yields for a value of two bytes or
more. -/
def parsedValue (value : List Byte) : Int :=
  (ParseInt (value.take (value.length - 2) ++ value.drop (value.length - 1))).1

/-- A line `<name>;<value>\n` that `ChunkReader` takes as one reading: the name
is not empty, neither field has a `;` or a newline, and the value has two bytes
or more. -/
def GoodLine (l : List Byte × List Byte) : Prop :=
  l.1 ≠ [] ∧ 59 ∉ l.1 ∧ 10 ∉ l.1 ∧ 59 ∉ l.2 ∧ 10 ∉ l.2 ∧ 2 ≤ l.2.length

/-- The bytes of a list of lines. -/
def encodeLines (ls : List (List Byte × List Byte)) : List Byte :=
  (ls.map (fun l => lineBytes l.1 l.2)).flatten

/-- The readings of one station among a list of lines, as `ChunkReader`
parses them. -/
def lineReadings (key : List Byte) (ls : List (List Byte × List Byte)) : List Int :=
  (ls.filter (fun l => decide (l.1 = key))).map (fun l => parsedValue l.2)

/-- The name and the value text of a record. -/
def Record.line (r : Record) : List Byte × List Byte := (r.name, r.temp.bytes)

/-- What the claim on aggregates says of the aggregate `w` of a station with
the readings `temps`: the count, the sum (as an `int64`), the least and the
greatest reading. -/
def AggregateOf (w : Weather) (temps : List Int) : Prop :=
  w.Count = (temps.length : Int) ∧ w.Sum = wrapInt64 temps.sum ∧
    (w.Min ∈ temps ∧ ∀ v ∈ temps, w.Min ≤ v) ∧ (w.Max ∈ temps ∧ ∀ v ∈ temps, v ≤ w.Max)

/-- The records of the chunk `Hamburg;12.3\nBerlin;-5.5\nHamburg;8.0\n`. -/
def hamburgBerlin : List Record :=
  [⟨asciiBytes "Hamburg", ⟨false, [1, 2], 3⟩⟩, ⟨asciiBytes "Berlin", ⟨true, [5], 5⟩⟩,
   ⟨asciiBytes "Hamburg", ⟨false, [8], 0⟩⟩]

/-- Two records of station `A` with the largest value an `int64` can hold,
`922337203685477580.7`. -/
def overflowRecords : List Record :=
  [⟨asciiBytes "A", ⟨false, [9, 2, 2, 3, 3, 7, 2, 0, 3, 6, 8, 5, 4, 7, 7, 5, 8, 0], 7⟩⟩,
   ⟨asciiBytes "A", ⟨false, [9, 2, 2, 3, 3, 7, 2, 0, 3, 6, 8, 5, 4, 7, 7, 5, 8, 0], 7⟩⟩]

/-- The invariant of an aggregate: `Min ≤ Max` and `Count ≥ 1`. -/
def GoodWeather (w : Weather) : Prop := w.Min ≤ w.Max ∧ 1 ≤ w.Count

instance (w : Weather) : Decidable (GoodWeather w) := by unfold GoodWeather; infer_instance

/-- Every aggregate of the map satisfies the invariant. -/
def GoodMap (m : CityMap) : Prop := ∀ key w, mapGet m key = some w → GoodWeather w

/-- No station of both maps has Counts whose sum leaves the range of `int64`. -/
def CountsFit (cities t : CityMap) : Prop :=
  ∀ key w1 w2, mapGet cities key = some w1 → mapGet t key = some w2 →
    w1.Count + w2.Count ≤ 9223372036854775807

/-- The bytes end with a newline. -/
def EndsWithNewline (s : List Byte) : Prop := ∃ pre, s = pre ++ [10]

/-- The input cut just after its last newline (empty when it has none). -/
def truncateAfterLastNewline (input : List Byte) : List Byte :=
  input.take (LastIndex input 10 + 1).toNat


/-! ## The values that reach the conversion -/

/-- The values `ChunkReader` hands to `ConvertStringToInt64` while it scans
the bytes `buf`, in order, every conversion taken to succeed: the scan of lines
172 to 205 with the builder `sb` and the name `city` alone, which are all the
guard of line 180 reads. -/
def conversionInputsFrom (sb city : List Byte) : List Byte → List (List Byte)
  | [] => []
  | char :: buf =>
    if char = 59 then conversionInputsFrom [] sb buf
    else if char = 10 then
      if sb.length ≠ 0 ∧ city.length ≠ 0 then sb :: conversionInputsFrom [] city buf
      else conversionInputsFrom sb city buf
    else conversionInputsFrom (sb ++ [char]) city buf

/-- The values that reach the conversion when `ChunkReader` reads a chunk. -/
def conversionInputs (buf : List Byte) : List (List Byte) := conversionInputsFrom [] [] buf

/-- The text `ConvertStringToInt64` hands to `strconv.ParseInt`: the input
without its byte before the last one. -/
def cutText (input : List Byte) : List Byte :=
  input.take (input.length - 2) ++ input.drop (input.length - 1)

/-- A text `strconv.ParseInt` refuses with a syntax error: after one optional
sign it is empty, or its first byte that is no digit comes after digits whose
value does not exceed the largest `uint64`. -/
def SyntaxRefused (t : List Byte) : Prop :=
  ∃ (sign : List Byte) (ds : List Nat) (tail : List Byte),
    t = sign ++ digitBytes ds ++ tail ∧
    (sign = [] ∨ sign = [43] ∨ sign = [45]) ∧
    (∀ d ∈ ds, d < 10) ∧ decimalValue ds ≤ maxUint64 ∧
    (match tail with
      | [] => ds = []
      | c :: _ => ¬ (48 ≤ c ∧ c ≤ 57) ∧ (sign = [] → ds = [] → c ≠ 43 ∧ c ≠ 45))

/-! ## `Evaluate`: the start of the workers -/

/-- The loop `for i := 0; i < runtime.NumCPU()-1; i++` of line 89, each
iteration of which starts one worker: the number of workers started when the
loop ends, from the counter `i` and the workers `started` so far; `none` when
the fuel is used up. -/
def startWorkersLoop (numCPU : Int) : Nat → Int → Nat → Option Nat
  | 0, _, _ => none
  | fuel + 1, i, started =>
    if i < numCPU - 1 then startWorkersLoop numCPU fuel (i + 1) (started + 1)
    else some started

/-- The number of workers `Evaluate` starts on a machine with `numCPU` cores. -/
def workersStarted (numCPU : Int) : Option Nat :=
  startWorkersLoop numCPU (numCPU.toNat + 1) 0 0

/-! ## The mean -/

/-- The sum lies between the least and the greatest reading, each taken
`Count` times. -/
def MeanBounds (w : Weather) : Prop := w.Min * w.Count ≤ w.Sum ∧ w.Sum ≤ w.Max * w.Count

instance (w : Weather) : Decidable (MeanBounds w) := by unfold MeanBounds; infer_instance

/-- The quotient `city.Sum/city.Count` inside line 28 of `utils.go`: the
division of `int64` truncates toward zero and fails at run time for the
divisor zero. -/
def meanQuotient (city : Weather) : Option Int :=
  if city.Count = 0 then none else some (wrapInt64 (Int.tdiv city.Sum city.Count))

/-- The number of low bits a `float64` cannot keep of the natural number `a`:
the least `e` with `a / 2 ^ e < 2 ^ 53`, searched with the given fuel. -/
def float64Shift : Nat → Nat → Nat
  | 0, _ => 0
  | fuel + 1, a => if a < 9007199254740992 then 0 else float64Shift fuel (a / 2) + 1

/-- The conversion `float64(x)` of an `int64`: the nearest number whose
significand has 53 bits, a tie going to the even significand. The result is a
whole number and is given as an integer. -/
def float64OfInt64 (x : Int) : Int :=
  let a := x.natAbs
  let e := float64Shift 64 a
  let q := a / 2 ^ e
  let r := a % 2 ^ e
  let m := if 2 * r > 2 ^ e ∨ (2 * r = 2 ^ e ∧ q % 2 = 1) then q + 1 else q
  if x < 0 then -((m * 2 ^ e : Nat) : Int) else ((m * 2 ^ e : Nat) : Int)

/-- The function `math.Round` on a `float64` that is a whole number, as every
result of `float64OfInt64` is: such a value is returned unchanged. -/
def mathRound (f : Int) : Int := f

/-- The mean `WriteWeatherStats` prints for a station,
`math.Round(float64(city.Sum/city.Count))`: the verb `%.1f` prints this whole
number with the one decimal `0`, and `Min` and `Max` are printed with `%d`.
The value `none` is the run-time failure of the division. -/
def printedMean (city : Weather) : Option Int :=
  match meanQuotient city with
  | none => none
  | some q => some (mathRound (float64OfInt64 q))

/-- What holds of the mean of an aggregate: the quotient `Sum / Count` is
computed without failure and lies between `Min` and `Max`, and it is the mean
printed whenever its absolute value is at most 2^53. -/
def MeanBetween (w : Weather) : Prop :=
  meanQuotient w = some (Int.tdiv w.Sum w.Count) ∧
    w.Min ≤ Int.tdiv w.Sum w.Count ∧ Int.tdiv w.Sum w.Count ≤ w.Max ∧
    ((Int.tdiv w.Sum w.Count).natAbs ≤ 9007199254740992 →
      printedMean w = some (Int.tdiv w.Sum w.Count))

/-- The record of the chunk `a;900719925474099.3\n`, whose scaled value is
2^53 + 1. -/
def roundingRecords : List Record :=
  [⟨asciiBytes "a", ⟨false, [9, 0, 0, 7, 1, 9, 9, 2, 5, 4, 7, 4, 0, 9, 9], 3⟩⟩]

/-! ## Arithmetic of `int64` -/

theorem wrapInt64_of_inInt64 {x : Int} (h : InInt64 x) : wrapInt64 x = x := by
  unfold InInt64 at h
  unfold wrapInt64
  omega

theorem wrapInt64_inInt64 (x : Int) : InInt64 (wrapInt64 x) := by
  unfold InInt64 wrapInt64
  omega

theorem wrapInt64_add_left (a b : Int) : wrapInt64 (wrapInt64 a + b) = wrapInt64 (a + b) := by
  unfold wrapInt64
  omega

theorem wrapInt64_add_right (a b : Int) : wrapInt64 (a + wrapInt64 b) = wrapInt64 (a + b) := by
  unfold wrapInt64
  omega

/-! ## `ParseInt` on decimal digits -/

theorem foldl_digits_le (ds : List Nat) (n : Nat) :
    n ≤ ds.foldl (fun n d => n * 10 + d) n := by
  induction ds generalizing n with
  | nil => simp
  | cons d ds ih =>
    simp only [List.foldl_cons]
    have := ih (n * 10 + d)
    omega

theorem ParseUintLoop_digits (ds : List Nat) (n : Nat) (hd : ∀ d ∈ ds, d < 10)
    (hb : ds.foldl (fun n d => n * 10 + d) n ≤ maxUint64) :
    ParseUintLoop (digitBytes ds) n = (ds.foldl (fun n d => n * 10 + d) n, none) := by
  induction ds generalizing n with
  | nil => simp [digitBytes, ParseUintLoop]
  | cons d ds ih =>
    have hd10 : d < 10 := hd d (List.mem_cons_self _ _)
    simp only [List.foldl_cons] at hb ⊢
    have hle := foldl_digits_le ds (n * 10 + d)
    have hrec := ih (n * 10 + d) (fun x hx => hd x (List.mem_cons_of_mem _ hx)) hb
    unfold maxUint64 at hb
    have h1 : 48 ≤ d + 48 ∧ d + 48 ≤ 57 := by omega
    have h2 : ¬ (d + 48 - 48 ≥ 10) := by omega
    have h3 : ¬ (n ≥ parseUintCutoff) := by
      unfold parseUintCutoff maxUint64; omega
    have e1 : (n * 10) % 18446744073709551616 = n * 10 := by omega
    have e2 : (n * 10 + (d + 48 - 48)) % 18446744073709551616 = n * 10 + d := by omega
    have h4 : ¬ (n * 10 + d < n * 10 ∨ n * 10 + d > maxUint64) := by
      unfold maxUint64; omega
    simp only [digitBytes, List.map_cons, ParseUintLoop, h1, and_self, if_true, h2, h3,
      if_false, e1, e2, h4]
    exact hrec


theorem decimalValue_append_single (ds : List Nat) (f : Nat) :
    decimalValue (ds ++ [f]) = decimalValue ds * 10 + f := by
  simp [decimalValue, List.foldl_append]

theorem digitBytes_append (a b : List Nat) : digitBytes (a ++ b) = digitBytes a ++ digitBytes b := by
  simp [digitBytes]

theorem cut_before_last (p : List Nat) (a b : Nat) :
    (p ++ [a, b]).take ((p ++ [a, b]).length - 2) ++ (p ++ [a, b]).drop ((p ++ [a, b]).length - 1)
      = p ++ [b] := by
  have h1 : (p ++ [a, b]).length - 2 = p.length := by simp
  have h2 : (p ++ [a, b]).length - 1 = p.length + 1 := by simp
  rw [h1, h2, List.take_left, List.drop_append]
  simp

/-- Cutting the byte before the last one out of the text of a temperature
leaves the sign and all the digits. -/
theorem Temperature.bytes_cut (t : Temperature) :
    t.bytes.take (t.bytes.length - 2) ++ t.bytes.drop (t.bytes.length - 1)
      = (if t.neg then [45] else []) ++ digitBytes (t.intDigits ++ [t.frac]) := by
  unfold Temperature.bytes
  rw [cut_before_last, digitBytes_append]
  simp [digitBytes]

theorem Temperature.bytes_length (t : Temperature) : 2 ≤ t.bytes.length := by
  simp [Temperature.bytes]; omega

theorem ParseInt_temperature (t : Temperature) (hwf : t.WellFormed) (hfit : InInt64 t.scaled) :
    ParseInt ((if t.neg then [45] else []) ++ digitBytes (t.intDigits ++ [t.frac]))
      = (t.scaled, none) := by
  obtain ⟨hne, hds, hf⟩ := hwf
  have hall : ∀ d ∈ t.intDigits ++ [t.frac], d < 10 := by
    intro d hd
    rcases List.mem_append.1 hd with h | h
    · exact hds d h
    · simp at h; omega
  have hval : decimalValue (t.intDigits ++ [t.frac]) = decimalValue t.intDigits * 10 + t.frac :=
    decimalValue_append_single _ _
  have hnonempty : digitBytes (t.intDigits ++ [t.frac]) ≠ [] := by
    simp [digitBytes]
  unfold InInt64 Temperature.scaled at hfit
  have hloop := ParseUintLoop_digits (t.intDigits ++ [t.frac]) 0 hall
  have hfold : (t.intDigits ++ [t.frac]).foldl (fun n d => n * 10 + d) 0
      = decimalValue t.intDigits * 10 + t.frac := hval
  rw [hfold] at hloop
  cases hneg : t.neg with
  | true =>
    simp only [hneg, if_true] at hfit ⊢
    have hle : decimalValue t.intDigits * 10 + t.frac ≤ maxUint64 := by
      unfold maxUint64; omega
    have hp : ParseUint (digitBytes (t.intDigits ++ [t.frac]))
        = (decimalValue t.intDigits * 10 + t.frac, none) := by
      unfold ParseUint; rw [if_neg hnonempty]; exact hloop hle
    have h1 : ¬ (decimalValue t.intDigits * 10 + t.frac > 9223372036854775808) := by omega
    simp only [List.singleton_append, ParseInt, show ¬ ((45 : Nat) = 43) by decide, if_true,
      if_false]
    rw [hp]
    simp [h1, Temperature.scaled, hneg]
    unfold wrapInt64
    omega
  | false =>
    simp only [hneg, if_false, Bool.false_eq_true] at hfit ⊢
    have hle : decimalValue t.intDigits * 10 + t.frac ≤ maxUint64 := by
      unfold maxUint64; omega
    obtain ⟨d, ds, hds'⟩ := List.exists_cons_of_ne_nil hne
    have hd10 : d < 10 := hds d (by rw [hds']; exact List.mem_cons_self _ _)
    have hp : ParseUint (digitBytes (t.intDigits ++ [t.frac]))
        = (decimalValue t.intDigits * 10 + t.frac, none) := by
      unfold ParseUint; rw [if_neg hnonempty]; exact hloop hle
    have hcons : digitBytes (t.intDigits ++ [t.frac]) = (d + 48) :: digitBytes (ds ++ [t.frac]) := by
      rw [hds']; simp [digitBytes]
    have h43 : ¬ (d + 48 = 43) := by omega
    have h45 : ¬ (d + 48 = 45) := by omega
    rw [List.nil_append]
    rw [hcons] at hp ⊢
    have h1 : ¬ (decimalValue t.intDigits * 10 + t.frac ≥ 9223372036854775808) := by omega
    simp only [ParseInt, h43, h45, if_false]
    rw [hp]
    simp [h1, Temperature.scaled, hneg]
    unfold wrapInt64
    omega

theorem ConvertStringToInt64_temperature (t : Temperature) (hwf : t.WellFormed)
    (hfit : InInt64 t.scaled) : ConvertStringToInt64 t.bytes = some t.scaled := by
  have hlen := t.bytes_length
  unfold ConvertStringToInt64
  rw [if_neg (by omega)]
  simp only [Temperature.bytes_cut, ParseInt_temperature t hwf hfit]


/-! ## The combine of the reducer -/

theorem combine_Count (a b : Weather) : (combine a b).Count = wrapInt64 (a.Count + b.Count) := by
  unfold combine; dsimp only; split_ifs <;> rfl

theorem combine_Sum (a b : Weather) : (combine a b).Sum = wrapInt64 (a.Sum + b.Sum) := by
  unfold combine; dsimp only; split_ifs <;> rfl

theorem combine_Min (a b : Weather) : (combine a b).Min = min a.Min b.Min := by
  unfold combine; dsimp only
  split_ifs with h1 h2 h2 <;> simp only [] <;> simp at h1 <;> omega

theorem combine_Max (a b : Weather) : (combine a b).Max = max a.Max b.Max := by
  unfold combine; dsimp only
  split_ifs with h1 h2 h2 <;> simp only [] <;> simp at h2 <;> omega

theorem combine_comm (a b : Weather) : combine a b = combine b a := by
  ext
  · rw [combine_Min, combine_Min, min_comm]
  · rw [combine_Max, combine_Max, max_comm]
  · rw [combine_Sum, combine_Sum, add_comm]
  · rw [combine_Count, combine_Count, add_comm]

theorem combine_assoc (a b c : Weather) :
    combine (combine a b) c = combine a (combine b c) := by
  ext
  · simp only [combine_Min, min_assoc]
  · simp only [combine_Max, max_assoc]
  · simp only [combine_Sum, wrapInt64_add_left, wrapInt64_add_right, add_assoc]
  · simp only [combine_Count, wrapInt64_add_left, wrapInt64_add_right, add_assoc]

/-- The update made by `ChunkReader` for one more reading is the combine with
the aggregate of that single reading. -/
theorem updateWeather_eq_combine (w : Weather) (temp : Int) :
    updateWeather w temp = combine w ⟨temp, temp, temp, 1⟩ := by
  unfold updateWeather combine
  dsimp only
  split_ifs <;> rfl


/-! ## Maps -/

theorem mapGet_mapSet (m : CityMap) (k key : List Byte) (v : Weather) :
    mapGet (mapSet m k v) key = if k = key then some v else mapGet m key := by
  induction m with
  | nil => simp [mapSet, mapGet]
  | cons e m ih =>
    obtain ⟨k1, w⟩ := e
    by_cases h : k1 = k
    · subst h
      by_cases h2 : k1 = key <;> simp [mapSet, mapGet, h2]
    · by_cases h2 : k = key
      · subst h2
        simp [mapSet, mapGet, h, ih]
      · simp [mapSet, mapGet, h, ih, h2]

theorem mem_keys_mapSet (m : CityMap) (k : List Byte) (v : Weather) (key : List Byte) :
    key ∈ (mapSet m k v).map Prod.fst ↔ key = k ∨ key ∈ m.map Prod.fst := by
  induction m with
  | nil => simp [mapSet]
  | cons e m ih =>
    obtain ⟨k1, w⟩ := e
    by_cases h : k1 = k
    · subst h; simp [mapSet]
    · simp only [mapSet, h, if_false, List.map_cons, List.mem_cons, ih]
      tauto

theorem NodupKeys_mapSet (m : CityMap) (k : List Byte) (v : Weather) (h : NodupKeys m) :
    NodupKeys (mapSet m k v) := by
  unfold NodupKeys at *
  induction m with
  | nil => simp [mapSet]
  | cons e m ih =>
    obtain ⟨k1, w⟩ := e
    simp only [List.map_cons, List.nodup_cons] at h
    by_cases hk : k1 = k
    · subst hk
      simpa [mapSet] using h
    · simp only [mapSet, hk, if_false, List.map_cons, List.nodup_cons]
      refine ⟨?_, ih h.2⟩
      intro hmem
      rcases (mem_keys_mapSet m k v k1).1 hmem with h1 | h1
      · exact hk h1
      · exact h.1 h1

theorem mapGet_eq_none_iff (m : CityMap) (key : List Byte) :
    mapGet m key = none ↔ key ∉ m.map Prod.fst := by
  induction m with
  | nil => simp [mapGet]
  | cons e m ih =>
    obtain ⟨k1, w⟩ := e
    by_cases h : k1 = key
    · simp [mapGet, h]
    · simp only [mapGet, h, if_false, ih, List.map_cons, List.mem_cons]
      constructor
      · intro h1 h2
        rcases h2 with h2 | h2
        · exact h h2.symm
        · exact h1 h2
      · intro h1 h2
        exact h1 (Or.inr h2)

theorem valuesAt_of_nodup (m : CityMap) (key : List Byte) (h : NodupKeys m) :
    valuesAt key m = (mapGet m key).toList := by
  unfold NodupKeys at h
  induction m with
  | nil => simp [valuesAt, mapGet]
  | cons e m ih =>
    obtain ⟨k1, w⟩ := e
    simp only [List.map_cons, List.nodup_cons] at h
    by_cases hk : k1 = key
    · subst hk
      have hnone : mapGet m k1 = none := (mapGet_eq_none_iff m k1).2 h.1
      have := ih h.2
      rw [hnone] at this
      unfold valuesAt at this ⊢
      simp [mapGet, this]
    · have := ih h.2
      unfold valuesAt at this ⊢
      simp [mapGet, hk, this]

/-! ## The reducer, station by station -/

theorem absorb_right_comm (acc : Option Weather) (a b : Weather) :
    absorb (absorb acc a) b = absorb (absorb acc b) a := by
  cases acc with
  | none => simp [absorb, combine_comm a b]
  | some w =>
    simp only [absorb]
    rw [combine_assoc, combine_assoc, combine_comm a b]

theorem mapGet_mergeEntry (cities : CityMap) (e : List Byte × Weather) (key : List Byte) :
    mapGet (mergeEntry cities e) key
      = if e.1 = key then absorb (mapGet cities key) e.2 else mapGet cities key := by
  unfold mergeEntry
  by_cases h : e.1 = key
  · subst h
    cases hg : mapGet cities e.1 <;> simp [mapGet_mapSet, absorb]
  · cases hg : mapGet cities e.1 <;> simp [mapGet_mapSet, h]

theorem mapGet_mergeMap (cities t : CityMap) (key : List Byte) :
    mapGet (mergeMap cities t) key = (valuesAt key t).foldl absorb (mapGet cities key) := by
  unfold mergeMap
  induction t generalizing cities with
  | nil => simp [valuesAt]
  | cons e t ih =>
    rw [List.foldl_cons, ih, mapGet_mergeEntry]
    by_cases h : e.1 = key
    · simp [valuesAt, h]
    · simp [valuesAt, h]

theorem valuesAt_append (key : List Byte) (a b : CityMap) :
    valuesAt key (a ++ b) = valuesAt key a ++ valuesAt key b := by
  simp [valuesAt]

theorem mapGet_foldl_mergeMap (stream : List CityMap) (cities : CityMap) (key : List Byte) :
    mapGet (stream.foldl mergeMap cities) key
      = (valuesAt key stream.flatten).foldl absorb (mapGet cities key) := by
  induction stream generalizing cities with
  | nil => simp [valuesAt]
  | cons t stream ih =>
    rw [List.foldl_cons, ih, mapGet_mergeMap, List.flatten_cons, valuesAt_append,
      List.foldl_append]

theorem mapGet_reduceStream (stream : List CityMap) (key : List Byte) :
    mapGet (reduceStream stream) key = (valuesAt key stream.flatten).foldl absorb none := by
  unfold reduceStream
  rw [mapGet_foldl_mergeMap]
  rfl

/-- The order in which `range` visits the entries of a partial map does not
change the merged map. -/
theorem mergeMap_perm (cities t1 t2 : CityMap) (h : t1.Perm t2) :
    MapEq (mergeMap cities t1) (mergeMap cities t2) := by
  intro key
  rw [mapGet_mergeMap, mapGet_mergeMap]
  have hp : (valuesAt key t1).Perm (valuesAt key t2) := by
    unfold valuesAt
    exact (h.filter _).map _
  exact hp.foldl_eq' (fun x _ y _ z => absorb_right_comm z x y) _

theorem reduceStream_perm (s1 s2 : List CityMap) (h : s1.Perm s2) :
    MapEq (reduceStream s1) (reduceStream s2) := by
  intro key
  rw [mapGet_reduceStream, mapGet_reduceStream]
  have hp : (valuesAt key s1.flatten).Perm (valuesAt key s2.flatten) := by
    unfold valuesAt
    exact (h.flatten.filter _).map _
  exact hp.foldl_eq' (fun x _ y _ z => absorb_right_comm z x y) none


/-! ## Optional aggregates form a commutative monoid -/

theorem absorb_eq_optCombine (a : Option Weather) (v : Weather) :
    absorb a v = optCombine a (some v) := rfl

theorem optCombine_none_left (a : Option Weather) : optCombine none a = a := by
  cases a <;> rfl

theorem optCombine_none_right (a : Option Weather) : optCombine a none = a := rfl

theorem optCombine_assoc (a b c : Option Weather) :
    optCombine (optCombine a b) c = optCombine a (optCombine b c) := by
  cases c with
  | none => rfl
  | some z =>
    cases b with
    | none => simp [optCombine, absorb]
    | some y =>
      cases a with
      | none => simp [optCombine, absorb]
      | some x => simp [optCombine, absorb, combine_assoc]

theorem foldl_absorb (vs : List Weather) (acc : Option Weather) :
    vs.foldl absorb acc = optCombine acc (vs.foldl absorb none) := by
  induction vs generalizing acc with
  | nil => rfl
  | cons v vs ih =>
    rw [List.foldl_cons, List.foldl_cons, ih (absorb acc v), ih (absorb none v),
      absorb_eq_optCombine, absorb_eq_optCombine, optCombine_none_left, optCombine_assoc]

theorem aggregate_append (a b : List Int) :
    aggregate (a ++ b) = optCombine (aggregate a) (aggregate b) := by
  unfold aggregate
  rw [List.map_append, List.foldl_append, foldl_absorb]

theorem mapGet_mergeMap_of_nodup (cities t : CityMap) (key : List Byte) (h : NodupKeys t) :
    mapGet (mergeMap cities t) key = optCombine (mapGet cities key) (mapGet t key) := by
  rw [mapGet_mergeMap, valuesAt_of_nodup t key h]
  cases mapGet t key <;> rfl

/-! ## `ChunkReader`, line by line -/

theorem foldlM_readerStep_plain (bs : List Byte) (st : ReaderState)
    (h59 : 59 ∉ bs) (h10 : 10 ∉ bs) :
    bs.foldlM readerStep st = some { st with sb := st.sb ++ bs } := by
  induction bs generalizing st with
  | nil => simp
  | cons b bs ih =>
    have hb59 : ¬ (b = 59) := fun h => h59 (by simp [h])
    have hb10 : ¬ (b = 10) := fun h => h10 (by simp [h])
    have h59' : 59 ∉ bs := fun h => h59 (List.mem_cons_of_mem _ h)
    have h10' : 10 ∉ bs := fun h => h10 (List.mem_cons_of_mem _ h)
    rw [List.foldlM_cons]
    simp only [readerStep, hb59, hb10, if_false, Option.bind_eq_bind, Option.some_bind]
    rw [ih _ h59' h10']
    simp

theorem ConvertStringToInt64_of_length (value : List Byte) (h : 2 ≤ value.length) :
    ConvertStringToInt64 value = some (parsedValue value) := by
  unfold ConvertStringToInt64 parsedValue
  rw [if_neg (by omega)]

theorem foldlM_readerStep_line (l : List Byte × List Byte) (hl : GoodLine l)
    (res : CityMap) (city : List Byte) :
    (lineBytes l.1 l.2).foldlM readerStep { sb := [], res := res, city := city }
      = some { sb := [], res := addReading res l.1 (parsedValue l.2), city := l.1 } := by
  obtain ⟨hne, hn59, hn10, hv59, hv10, hlen⟩ := hl
  unfold lineBytes
  rw [List.foldlM_append, foldlM_readerStep_plain _ _ hn59 hn10]
  simp only [Option.bind_eq_bind, Option.some_bind, List.nil_append, List.foldlM_cons]
  simp only [readerStep, if_true]
  simp only [Option.some_bind]
  rw [List.foldlM_append, foldlM_readerStep_plain _ _ hv59 hv10]
  have hvne : l.2 ≠ [] := by
    intro h; rw [h] at hlen; simp at hlen
  simp [readerStep, hvne, hne, ConvertStringToInt64_of_length l.2 hlen]

/-- The result map after the lines `ls` were read into `res`. -/
theorem foldlM_readerStep_lines (ls : List (List Byte × List Byte)) (hl : ∀ l ∈ ls, GoodLine l)
    (res : CityMap) (city : List Byte) :
    ∃ city1, (encodeLines ls).foldlM readerStep { sb := [], res := res, city := city }
      = some { sb := [], res := ls.foldl (fun r l => addReading r l.1 (parsedValue l.2)) res,
               city := city1 } := by
  induction ls generalizing res city with
  | nil => exact ⟨city, by simp [encodeLines]⟩
  | cons l ls ih =>
    obtain ⟨city1, h1⟩ := ih (fun x hx => hl x (List.mem_cons_of_mem _ hx))
      (addReading res l.1 (parsedValue l.2)) l.1
    refine ⟨city1, ?_⟩
    have henc : encodeLines (l :: ls) = lineBytes l.1 l.2 ++ encodeLines ls := by
      simp [encodeLines]
    rw [henc, List.foldlM_append, foldlM_readerStep_line l (hl l (List.mem_cons_self _ _))]
    simpa using h1

theorem mapGet_addReading (res : CityMap) (city : List Byte) (temp : Int) (key : List Byte) :
    mapGet (addReading res city temp) key
      = if city = key then absorb (mapGet res key) (single temp) else mapGet res key := by
  unfold addReading
  by_cases h : city = key
  · subst h
    cases hg : mapGet res city <;> simp [mapGet_mapSet, absorb, single, updateWeather_eq_combine]
  · cases hg : mapGet res city <;> simp [mapGet_mapSet, h]

theorem NodupKeys_addReading (res : CityMap) (city : List Byte) (temp : Int)
    (h : NodupKeys res) : NodupKeys (addReading res city temp) := by
  unfold addReading
  cases mapGet res city <;> exact NodupKeys_mapSet _ _ _ h

theorem mapGet_foldl_addReading (ls : List (List Byte × List Byte)) (res : CityMap)
    (key : List Byte) :
    mapGet (ls.foldl (fun r l => addReading r l.1 (parsedValue l.2)) res) key
      = ((lineReadings key ls).map single).foldl absorb (mapGet res key) := by
  induction ls generalizing res with
  | nil => simp [lineReadings]
  | cons l ls ih =>
    rw [List.foldl_cons, ih, mapGet_addReading]
    by_cases h : l.1 = key
    · simp [lineReadings, h]
    · simp [lineReadings, h]

theorem NodupKeys_foldl_addReading (ls : List (List Byte × List Byte)) (res : CityMap)
    (h : NodupKeys res) :
    NodupKeys (ls.foldl (fun r l => addReading r l.1 (parsedValue l.2)) res) := by
  induction ls generalizing res with
  | nil => simpa using h
  | cons l ls ih =>
    rw [List.foldl_cons]
    exact ih _ (NodupKeys_addReading _ _ _ h)

/-- On a chunk of good lines `ChunkReader` sends a map without duplicate keys
which holds, for every station, the aggregate of its readings. -/
theorem ChunkReader_encodeLines (ls : List (List Byte × List Byte)) (hl : ∀ l ∈ ls, GoodLine l) :
    ∃ m, ChunkReader (encodeLines ls) = some m ∧ NodupKeys m ∧
      ∀ key, mapGet m key = aggregate (lineReadings key ls) := by
  obtain ⟨city1, h1⟩ := foldlM_readerStep_lines ls hl [] []
  refine ⟨ls.foldl (fun r l => addReading r l.1 (parsedValue l.2)) [], ?_, ?_, ?_⟩
  · unfold ChunkReader readerInit
    rw [h1]; rfl
  · exact NodupKeys_foldl_addReading ls [] (by simp [NodupKeys])
  · intro key
    rw [mapGet_foldl_addReading]
    rfl


/-! ## The aggregate of a list of readings -/

theorem aggregate_snoc (l : List Int) (t : Int) :
    aggregate (l ++ [t]) = absorb (aggregate l) (single t) := by
  simp [aggregate, List.foldl_append]

theorem aggregate_eq_none_iff (l : List Int) : aggregate l = none ↔ l = [] := by
  induction l using List.reverseRecOn with
  | nil => simp [aggregate]
  | append_singleton l t _ => simp [aggregate_snoc, absorb]

theorem aggregateOf_single (t : Int) (ht : InInt64 t) : AggregateOf (single t) [t] := by
  unfold AggregateOf single
  simp [wrapInt64_of_inInt64 ht]

theorem aggregateOf_combine (w : Weather) (l : List Int) (t : Int) (h : AggregateOf w l)
    (hlen : ((l ++ [t]).length : Int) ≤ 9223372036854775807) :
    AggregateOf (combine w (single t)) (l ++ [t]) := by
  obtain ⟨hc, hs, ⟨hmin, hminle⟩, ⟨hmax, hmaxle⟩⟩ := h
  unfold AggregateOf
  rw [combine_Count, combine_Sum, combine_Min, combine_Max]
  simp only [single, List.length_append, List.length_singleton, List.sum_append,
    List.sum_singleton, List.mem_append, List.mem_singleton] at hlen ⊢
  refine ⟨?_, ?_, ⟨?_, ?_⟩, ⟨?_, ?_⟩⟩
  · rw [hc]
    have : InInt64 ((l.length : Int) + 1) := by
      unfold InInt64; push_cast at hlen; omega
    rw [wrapInt64_of_inInt64 this]; push_cast; rfl
  · rw [hs, wrapInt64_add_left]
  · rcases le_total w.Min t with h | h
    · rw [min_eq_left h]; exact Or.inl hmin
    · rw [min_eq_right h]; exact Or.inr rfl
  · intro v hv
    rcases hv with hv | hv
    · exact le_trans (min_le_left _ _) (hminle v hv)
    · rw [hv]; exact min_le_right _ _
  · rcases le_total w.Max t with h | h
    · rw [max_eq_right h]; exact Or.inr rfl
    · rw [max_eq_left h]; exact Or.inl hmax
  · intro v hv
    rcases hv with hv | hv
    · exact le_trans (hmaxle v hv) (le_max_left _ _)
    · rw [hv]; exact le_max_right _ _

theorem aggregate_spec (l : List Int) (hr : ∀ v ∈ l, InInt64 v)
    (hlen : (l.length : Int) ≤ 9223372036854775807) (w : Weather)
    (h : aggregate l = some w) : AggregateOf w l := by
  induction l using List.reverseRecOn generalizing w with
  | nil => simp [aggregate] at h
  | append_singleton l t ih =>
    rw [aggregate_snoc] at h
    cases hl : aggregate l with
    | none =>
      have hnil := (aggregate_eq_none_iff l).1 hl
      subst hnil
      rw [hl] at h
      simp only [absorb, Option.some.injEq] at h
      subst h
      simpa using aggregateOf_single t (hr t (by simp))
    | some w0 =>
      rw [hl] at h
      simp only [absorb, Option.some.injEq] at h
      subst h
      have hlen0 : (l.length : Int) ≤ 9223372036854775807 := by
        simp only [List.length_append, List.length_singleton] at hlen
        push_cast at hlen; omega
      exact aggregateOf_combine w0 l t
        (ih (fun v hv => hr v (List.mem_append_left _ hv)) hlen0 w0 hl) hlen

/-! ## Records as lines -/

theorem encodeLines_records (rs : List Record) :
    encodeLines (rs.map Record.line) = encodeRecords rs := by
  unfold encodeLines encodeRecords
  rw [List.map_map]
  rfl

theorem Temperature.bytes_mem (t : Temperature) (hwf : t.WellFormed) (b : Nat)
    (hb : b ∈ t.bytes) : 45 ≤ b ∧ b ≤ 57 := by
  obtain ⟨_, hds, hf⟩ := hwf
  unfold Temperature.bytes digitBytes at hb
  simp only [List.mem_append, List.mem_map, List.mem_cons, List.mem_singleton,
    List.not_mem_nil, or_false] at hb
  rcases hb with (hb | ⟨d, hd, rfl⟩) | hb | hb
  · cases hn : t.neg <;> simp [hn] at hb
    omega
  · have := hds d hd; omega
  · omega
  · omega

theorem Record.goodLine (r : Record) (h : r.WellFormed) : GoodLine r.line := by
  obtain ⟨hne, h59, h10, hwf⟩ := h
  refine ⟨hne, h59, h10, ?_, ?_, r.temp.bytes_length⟩
  · intro hm; have := r.temp.bytes_mem hwf 59 hm; omega
  · intro hm; have := r.temp.bytes_mem hwf 10 hm; omega

theorem parsedValue_temperature (t : Temperature) (hwf : t.WellFormed) (hfit : InInt64 t.scaled) :
    parsedValue t.bytes = t.scaled := by
  have h1 := ConvertStringToInt64_temperature t hwf hfit
  rw [ConvertStringToInt64_of_length _ t.bytes_length] at h1
  exact Option.some.inj h1

theorem lineReadings_records (key : List Byte) (rs : List Record)
    (h : ∀ r ∈ rs, r.WellFormed ∧ InInt64 r.temp.scaled) :
    lineReadings key (rs.map Record.line) = readingsOf key rs := by
  induction rs with
  | nil => rfl
  | cons r rs ih =>
    have hr := h r (List.mem_cons_self _ _)
    have hrest := ih (fun x hx => h x (List.mem_cons_of_mem _ hx))
    unfold lineReadings readingsOf at hrest ⊢
    by_cases hk : r.name = key
    · simp [Record.line, hk, parsedValue_temperature r.temp hr.1.2.2.2 hr.2] at hrest ⊢
      exact hrest
    · simp [Record.line, hk] at hrest ⊢
      exact hrest

theorem readingsOf_eq_nil_iff (key : List Byte) (rs : List Record) :
    readingsOf key rs = [] ↔ ∀ r ∈ rs, r.name ≠ key := by
  simp [readingsOf, List.filter_eq_nil_iff]

theorem readingsOf_length_le (key : List Byte) (rs : List Record) :
    (readingsOf key rs).length ≤ (encodeRecords rs).length := by
  induction rs with
  | nil => simp [readingsOf]
  | cons r rs ih =>
    have h1 : (encodeRecords (r :: rs)).length = r.bytes.length + (encodeRecords rs).length := by
      simp [encodeRecords]
    have h2 : 1 ≤ r.bytes.length := by simp [Record.bytes, lineBytes]; omega
    have h3 : (readingsOf key (r :: rs)).length ≤ 1 + (readingsOf key rs).length := by
      unfold readingsOf
      by_cases hk : r.name = key <;> simp [List.filter_cons, hk]
      omega
    omega


/-! ## `bytes.LastIndex` -/

theorem LastIndex_of_not_mem (s : List Nat) (c : Nat) (h : c ∉ s) : LastIndex s c = -1 := by
  induction s with
  | nil => rfl
  | cons x xs ih =>
    have h1 : c ∉ xs := fun hm => h (List.mem_cons_of_mem _ hm)
    have h2 : ¬ (x = c) := fun he => h (by simp [he])
    simp [LastIndex, ih h1, h2]

theorem LastIndex_nonneg_of_mem (s : List Nat) (c : Nat) (h : c ∈ s) : 0 ≤ LastIndex s c := by
  induction s with
  | nil => simp at h
  | cons x xs ih =>
    by_cases hm : c ∈ xs
    · have := ih hm
      have hne : LastIndex xs c ≠ -1 := by omega
      simp only [LastIndex, hne, ne_eq, not_false_eq_true, if_true]
      omega
    · have hx : x = c := by
        rcases List.mem_cons.1 h with h1 | h1
        · exact h1.symm
        · exact absurd h1 hm
      simp [LastIndex, LastIndex_of_not_mem xs c hm, hx]

theorem LastIndex_append_cons (pre post : List Nat) (c : Nat) (h : c ∉ post) :
    LastIndex (pre ++ c :: post) c = (pre.length : Int) := by
  induction pre with
  | nil => simp [LastIndex, LastIndex_of_not_mem post c h]
  | cons x xs ih =>
    have hne : LastIndex (xs ++ c :: post) c ≠ -1 := by rw [ih]; omega
    show LastIndex (x :: (xs ++ c :: post)) c = _
    unfold LastIndex
    simp only []
    rw [if_pos hne, ih, List.length_cons]
    push_cast; rfl

/-- Every list with the byte `c` splits at the last `c`. -/
theorem exists_last_occurrence (s : List Nat) (c : Nat) (h : c ∈ s) :
    ∃ pre post, s = pre ++ c :: post ∧ c ∉ post := by
  induction s with
  | nil => simp at h
  | cons x xs ih =>
    by_cases hm : c ∈ xs
    · obtain ⟨pre, post, hs, hp⟩ := ih hm
      exact ⟨x :: pre, post, by simp [hs], hp⟩
    · have hx : x = c := by
        rcases List.mem_cons.1 h with h1 | h1
        · exact h1.symm
        · exact absurd h1 hm
      exact ⟨[], xs, by simp [hx], hm⟩

theorem cutPoint_of_not_mem (s : List Nat) (h : 10 ∉ s) : cutPoint s = 0 := by
  unfold cutPoint
  rw [LastIndex_of_not_mem s 10 h]
  rfl

theorem cutPoint_append_cons (pre post : List Nat) (h : 10 ∉ post) :
    cutPoint (pre ++ 10 :: post) = pre.length + 1 := by
  unfold cutPoint
  rw [LastIndex_append_cons pre post 10 h]
  omega

theorem take_cutPoint_append_cons (pre post : List Nat) (h : 10 ∉ post) :
    (pre ++ 10 :: post).take (cutPoint (pre ++ 10 :: post)) = pre ++ [10] := by
  rw [cutPoint_append_cons pre post h]
  rw [show pre ++ 10 :: post = (pre ++ [10]) ++ post by simp]
  rw [show pre.length + 1 = (pre ++ [10]).length by simp]
  exact List.take_left _ _

theorem drop_cutPoint_append_cons (pre post : List Nat) (h : 10 ∉ post) :
    (pre ++ 10 :: post).drop (cutPoint (pre ++ 10 :: post)) = post := by
  rw [cutPoint_append_cons pre post h]
  rw [show pre ++ 10 :: post = (pre ++ [10]) ++ post by simp]
  rw [show pre.length + 1 = (pre ++ [10]).length by simp]
  exact List.drop_left _ _

theorem not_mem_drop_cutPoint (s : List Nat) : 10 ∉ s.drop (cutPoint s) := by
  by_cases h : 10 ∈ s
  · obtain ⟨pre, post, hs, hp⟩ := exists_last_occurrence s 10 h
    rw [hs, drop_cutPoint_append_cons pre post hp]
    exact hp
  · rw [cutPoint_of_not_mem s h]
    simpa using h

/-! ## The splitter loop -/

theorem splitterLoop_succ (fuel selLen : Nat) (leftover rest : List Nat) :
    splitterLoop (fuel + 1) selLen leftover rest =
      if selLen ≠ 0 ∧ rest = [] then some ([], leftover)
      else
        match splitterLoop fuel (min selLen rest.length)
            ((rest.take (min selLen rest.length)).drop
              (cutPoint (rest.take (min selLen rest.length))))
            (rest.drop (min selLen rest.length)) with
        | none => none
        | some (chunks, last) =>
          some ((leftover ++ (rest.take (min selLen rest.length)).take
            (cutPoint (rest.take (min selLen rest.length)))) :: chunks, last) := by
  rfl

theorem splitterLoop_eof (fuel selLen : Nat) (leftover : List Nat) (h : selLen ≠ 0) :
    splitterLoop (fuel + 1) selLen leftover [] = some ([], leftover) := by
  rw [splitterLoop_succ]
  simp [h]

/-- With a buffer that is not empty the loop ends before the fuel does, the
bytes sent and the final leftover make up the leftover and the unread bytes it
started with, and the final leftover has no newline when the unread bytes
were not empty or the first leftover had none. -/
theorem splitterLoop_total (fuel selLen : Nat) (leftover rest : List Nat)
    (hsel : selLen ≠ 0) (hfuel : rest.length < fuel) :
    ∃ chunks last, splitterLoop fuel selLen leftover rest = some (chunks, last) ∧
      chunks.flatten ++ last = leftover ++ rest ∧
      (rest = [] → last = leftover) ∧ (rest ≠ [] → 10 ∉ last) := by
  induction fuel generalizing selLen leftover rest with
  | zero => omega
  | succ fuel ih =>
    by_cases hr : rest = []
    · subst hr
      exact ⟨[], leftover, splitterLoop_eof fuel selLen leftover hsel, by simp, fun _ => rfl,
        fun h => absurd rfl h⟩
    · have hlen : 0 < rest.length := List.length_pos.2 hr
      have hread : min selLen rest.length ≠ 0 := by omega
      have hdrop : (rest.drop (min selLen rest.length)).length < fuel := by
        rw [List.length_drop]; omega
      obtain ⟨chunks, last, hrec, hcat, hnil, hnl⟩ :=
        ih (min selLen rest.length)
          ((rest.take (min selLen rest.length)).drop
            (cutPoint (rest.take (min selLen rest.length))))
          (rest.drop (min selLen rest.length)) hread hdrop
      refine ⟨(leftover ++ (rest.take (min selLen rest.length)).take
        (cutPoint (rest.take (min selLen rest.length)))) :: chunks, last, ?_, ?_,
        fun h => absurd h hr, fun _ => ?_⟩
      · rw [splitterLoop_succ, if_neg (by simp [hr]), hrec]
      · rw [List.flatten_cons, List.append_assoc, List.append_assoc, hcat,
          ← List.append_assoc (List.take _ _), List.take_append_drop, List.take_append_drop]
      · by_cases hd : rest.drop (min selLen rest.length) = []
        · rw [hnil hd]
          exact not_mem_drop_cutPoint _
        · exact hnl hd


/-! ## Conservation of bytes -/

theorem suffix_endsWithNewline (u v pre : List Nat) (h : u ++ v = pre ++ [10]) (hv : v ≠ []) :
    EndsWithNewline v := by
  refine ⟨v.dropLast, ?_⟩
  have hv' : v = v.dropLast ++ [v.getLast hv] := (List.dropLast_append_getLast hv).symm
  have h2 : (u ++ v.dropLast) ++ [v.getLast hv] = pre ++ [10] := by
    rw [List.append_assoc, ← hv']; exact h
  have h3 := (List.append_inj' h2 rfl).2
  have h4 : v.getLast hv = 10 := by simpa using h3
  rw [← h4]; exact hv'

theorem not_mem_of_endsWithNewline (v : List Nat) (h : EndsWithNewline v) : ¬ (10 ∉ v) := by
  obtain ⟨pre, rfl⟩ := h
  simp

theorem Splitter_total (blockSize : Nat) (input : List Nat) (hB : 1 ≤ blockSize) :
    ∃ chunks last, Splitter blockSize input = some (chunks, last) ∧
      chunks.flatten ++ last = input ∧
      ((input = [] ∨ EndsWithNewline input) → last = [] ∧ chunks.flatten = input) := by
  obtain ⟨chunks, last, hs, hcat, hnil, hnl⟩ :=
    splitterLoop_total (input.length + 1) blockSize [] input (by omega) (by omega)
  rw [List.nil_append] at hcat
  have hlast : (input = [] ∨ EndsWithNewline input) → last = [] := by
    intro h
    rcases h with h | ⟨pre, hpre⟩
    · exact hnil h
    · by_contra hne
      have hin : input ≠ [] := by rw [hpre]; simp
      have := suffix_endsWithNewline chunks.flatten last pre (by rw [hcat, hpre]) hne
      exact not_mem_of_endsWithNewline last this (hnl hin)
  refine ⟨chunks, last, hs, hcat, fun h => ⟨hlast h, ?_⟩⟩
  have := hlast h
  rw [this, List.append_nil] at hcat
  exact hcat

/-! ## The invariant of the aggregates -/

theorem GoodMap_of_entries (m : CityMap) (h : ∀ e ∈ m, GoodWeather e.2) : GoodMap m := by
  intro key w hw
  induction m with
  | nil => simp [mapGet] at hw
  | cons e m ih =>
    obtain ⟨k, v⟩ := e
    by_cases hk : k = key
    · simp only [mapGet, hk, if_true, Option.some.injEq] at hw
      subst hw
      exact h (k, v) (List.mem_cons_self _ _)
    · simp only [mapGet, hk, if_false] at hw
      exact ih (fun e he => h e (List.mem_cons_of_mem _ he)) hw

theorem updateWeather_good (w : Weather) (temp : Int) (n : Int) (h : GoodWeather w)
    (hc : w.Count ≤ n) (hn : n < 9223372036854775807) :
    GoodWeather (updateWeather w temp) ∧ (updateWeather w temp).Count ≤ n + 1 := by
  obtain ⟨h1, h2⟩ := h
  rw [updateWeather_eq_combine]
  unfold GoodWeather
  rw [combine_Min, combine_Max, combine_Count]
  have hw : wrapInt64 (w.Count + (⟨temp, temp, temp, 1⟩ : Weather).Count) = w.Count + 1 := by
    apply wrapInt64_of_inInt64
    unfold InInt64
    constructor <;> (simp only []; omega)
  rw [hw]
  refine ⟨⟨?_, by omega⟩, by omega⟩
  exact le_trans (min_le_left _ _) (le_trans h1 (le_max_left _ _))

/-- The invariant of the result map of `ChunkReader` after `n` bytes. -/
theorem readerStep_good (st st1 : ReaderState) (char : Nat) (n : Int)
    (hstep : readerStep st char = some st1)
    (hinv : ∀ key w, mapGet st.res key = some w → GoodWeather w ∧ w.Count ≤ n)
    (h0 : 0 ≤ n) (hn : n < 9223372036854775807) :
    ∀ key w, mapGet st1.res key = some w → GoodWeather w ∧ w.Count ≤ n + 1 := by
  have hweak : ∀ key w, mapGet st.res key = some w → GoodWeather w ∧ w.Count ≤ n + 1 := by
    intro key w hw
    have := hinv key w hw
    exact ⟨this.1, by omega⟩
  unfold readerStep at hstep
  split_ifs at hstep with h1 h2 h3
  · simp only [Option.some.injEq] at hstep; subst hstep; exact hweak
  · cases hc : ConvertStringToInt64 st.sb with
    | none => rw [hc] at hstep; simp at hstep
    | some temp =>
      rw [hc] at hstep
      simp only [Option.some.injEq] at hstep
      subst hstep
      intro key w hw
      simp only [] at hw
      rw [mapGet_addReading] at hw
      by_cases hk : st.city = key
      · rw [if_pos hk] at hw
        cases hg : mapGet st.res key with
        | none =>
          rw [hg] at hw
          simp only [absorb, Option.some.injEq] at hw
          subst hw
          simp only [GoodWeather, single]
          omega
        | some w0 =>
          rw [hg] at hw
          simp only [absorb, Option.some.injEq] at hw
          subst hw
          have := hinv key w0 hg
          have hu := updateWeather_good w0 temp n this.1 this.2 hn
          rw [updateWeather_eq_combine] at hu
          exact hu
      · rw [if_neg hk] at hw
        exact hweak key w hw
  · simp only [Option.some.injEq] at hstep; subst hstep; exact hweak
  · simp only [Option.some.injEq] at hstep; subst hstep; exact hweak

theorem foldlM_readerStep_good (buf : List Nat) (st st1 : ReaderState) (n : Nat)
    (hrun : buf.foldlM readerStep st = some st1)
    (hinv : ∀ key w, mapGet st.res key = some w → GoodWeather w ∧ w.Count ≤ (n : Int))
    (hn : n + buf.length < 9223372036854775808) :
    ∀ key w, mapGet st1.res key = some w → GoodWeather w ∧ w.Count ≤ ((n + buf.length : Nat) : Int) := by
  induction buf generalizing st n with
  | nil =>
    simp only [List.foldlM_nil, Option.pure_def, Option.some.injEq] at hrun
    subst hrun
    simpa using hinv
  | cons b buf ih =>
    rw [List.foldlM_cons] at hrun
    cases hs : readerStep st b with
    | none => rw [hs] at hrun; simp at hrun
    | some st2 =>
      rw [hs] at hrun
      simp only [Option.bind_eq_bind, Option.some_bind] at hrun
      simp only [List.length_cons] at hn ⊢
      have h2 := readerStep_good st st2 b n hs hinv (by omega) (by omega)
      have h3 := ih st2 (n + 1) hrun (by simpa using h2) (by omega)
      rw [show n + (buf.length + 1) = n + 1 + buf.length by omega]
      exact h3

theorem ChunkReader_good (buf : List Nat) (m : CityMap)
    (hlen : buf.length < 9223372036854775808) (hm : ChunkReader buf = some m) : GoodMap m := by
  unfold ChunkReader at hm
  cases hrun : buf.foldlM readerStep readerInit with
  | none => rw [hrun] at hm; simp at hm
  | some st1 =>
    rw [hrun] at hm
    simp only [Option.map_some', Option.some.injEq] at hm
    subst hm
    intro key w hw
    exact (foldlM_readerStep_good buf readerInit st1 0 hrun
      (by intro key w hw; simp [readerInit, mapGet] at hw) (by omega) key w hw).1

theorem combine_good (w1 w2 : Weather) (h1 : GoodWeather w1) (h2 : GoodWeather w2)
    (hfit : w1.Count + w2.Count ≤ 9223372036854775807) : GoodWeather (combine w1 w2) := by
  unfold GoodWeather at *
  rw [combine_Min, combine_Max, combine_Count]
  have hw : wrapInt64 (w1.Count + w2.Count) = w1.Count + w2.Count := by
    apply wrapInt64_of_inInt64
    unfold InInt64
    omega
  rw [hw]
  exact ⟨le_trans (min_le_left _ _) (le_trans h1.1 (le_max_left _ _)), by omega⟩

theorem mergeMap_good (cities t : CityMap) (hc : GoodMap cities) (ht : GoodMap t)
    (hnd : NodupKeys t) (hfit : CountsFit cities t) : GoodMap (mergeMap cities t) := by
  intro key w hw
  rw [mapGet_mergeMap_of_nodup cities t key hnd] at hw
  cases h2 : mapGet t key with
  | none =>
    rw [h2] at hw
    exact hc key w hw
  | some w2 =>
    rw [h2] at hw
    cases h1 : mapGet cities key with
    | none =>
      rw [h1] at hw
      simp only [optCombine, absorb, Option.some.injEq] at hw
      subst hw
      exact ht key w2 h2
    | some w1 =>
      rw [h1] at hw
      simp only [optCombine, absorb, Option.some.injEq] at hw
      subst hw
      exact combine_good w1 w2 (hc key w1 h1) (ht key w2 h2) (hfit key w1 w2 h1 h2)


theorem mapGet_mem (m : CityMap) (key : List Nat) (w : Weather) (h : mapGet m key = some w) :
    (key, w) ∈ m := by
  induction m with
  | nil => simp [mapGet] at h
  | cons e m ih =>
    obtain ⟨k, v⟩ := e
    by_cases hk : k = key
    · simp only [mapGet, hk, if_true, Option.some.injEq] at h
      subst h; subst hk
      exact List.mem_cons_self _ _
    · simp only [mapGet, hk, if_false] at h
      exact List.mem_cons_of_mem _ (ih h)

theorem CountsFit_of_entries (cities t : CityMap)
    (h : ∀ e1 ∈ cities, ∀ e2 ∈ t, e1.2.Count + e2.2.Count ≤ 9223372036854775807) :
    CountsFit cities t := by
  intro key w1 w2 h1 h2
  exact h (key, w1) (mapGet_mem cities key w1 h1) (key, w2) (mapGet_mem t key w2 h2)


/-! ## The splitter on bytes without a newline, and on a truncated input -/

theorem splitterLoop_step (fuel selLen : Nat) (leftover rest : List Nat) (hr : rest ≠ [])
    (read : Nat) (hread : read = min selLen rest.length)
    (sel : List Nat) (hsel : sel = rest.take read)
    (chunks : List (List Nat)) (last : List Nat)
    (hrec : splitterLoop fuel read (sel.drop (cutPoint sel)) (rest.drop read)
      = some (chunks, last)) :
    splitterLoop (fuel + 1) selLen leftover rest
      = some ((leftover ++ sel.take (cutPoint sel)) :: chunks, last) := by
  subst hsel; subst hread
  rw [splitterLoop_succ, if_neg (by simp [hr]), hrec]

theorem splitterLoop_mono (f1 f2 selLen : Nat) (leftover rest : List Nat)
    (r : List (List Nat) × List Nat)
    (h : splitterLoop f1 selLen leftover rest = some r) (hle : f1 ≤ f2) :
    splitterLoop f2 selLen leftover rest = some r := by
  induction f1 generalizing f2 selLen leftover rest r with
  | zero => simp [splitterLoop] at h
  | succ f1 ih =>
    obtain ⟨f2, rfl⟩ : ∃ g, f2 = g + 1 := ⟨f2 - 1, by omega⟩
    rw [splitterLoop_succ] at h ⊢
    by_cases hc : selLen ≠ 0 ∧ rest = []
    · rw [if_pos hc] at h ⊢; exact h
    · rw [if_neg hc] at h ⊢
      cases hrec : splitterLoop f1 (min selLen rest.length)
          ((rest.take (min selLen rest.length)).drop
            (cutPoint (rest.take (min selLen rest.length))))
          (rest.drop (min selLen rest.length)) with
      | none => rw [hrec] at h; simp at h
      | some r1 =>
        rw [ih _ _ _ _ r1 hrec (by omega)]
        rw [hrec] at h
        exact h

theorem splitterLoop_no_newline (fuel selLen : Nat) (leftover rest : List Nat)
    (hsel : selLen ≠ 0) (hfuel : rest.length < fuel) (hl : 10 ∉ leftover) (hr : 10 ∉ rest) :
    ∃ chunks last, splitterLoop fuel selLen leftover rest = some (chunks, last) ∧
      ∀ c ∈ chunks, 10 ∉ c := by
  induction fuel generalizing selLen leftover rest with
  | zero => omega
  | succ fuel ih =>
    by_cases hn : rest = []
    · subst hn
      exact ⟨[], leftover, splitterLoop_eof fuel selLen leftover hsel, by simp⟩
    · have hlen : 0 < rest.length := List.length_pos.2 hn
      have hsel10 : 10 ∉ rest.take (min selLen rest.length) :=
        fun h => hr (List.mem_of_mem_take h)
      have hcut := cutPoint_of_not_mem _ hsel10
      obtain ⟨chunks, last, hrec, hall⟩ :=
        ih (min selLen rest.length)
          ((rest.take (min selLen rest.length)).drop
            (cutPoint (rest.take (min selLen rest.length))))
          (rest.drop (min selLen rest.length)) (by omega)
          (by rw [List.length_drop]; omega)
          (not_mem_drop_cutPoint _)
          (fun h => hr (List.mem_of_mem_drop h))
      refine ⟨_, last, splitterLoop_step fuel selLen leftover rest hn _ rfl _ rfl chunks last hrec,
        ?_⟩
      intro c hc
      rcases List.mem_cons.1 hc with h | h
      · rw [h, hcut]; simpa using hl
      · exact hall c h

theorem splitterLoop_truncate (fuel selLen : Nat) (leftover a b : List Nat)
    (hsel : selLen ≠ 0) (hfuel : (a ++ b).length < fuel) (hb : 10 ∉ b) (hl : 10 ∉ leftover)
    (ha : a = [] ∨ EndsWithNewline a) :
    ∃ c2 l2 extra l1, splitterLoop fuel selLen leftover a = some (c2, l2) ∧
      splitterLoop fuel selLen leftover (a ++ b) = some (c2 ++ extra, l1) ∧
      ∀ c ∈ extra, 10 ∉ c := by
  induction fuel generalizing selLen leftover a with
  | zero => omega
  | succ fuel ih =>
    by_cases hnil : a = []
    · subst hnil
      rw [List.nil_append] at hfuel ⊢
      obtain ⟨cs, l1, h1, hall⟩ := splitterLoop_no_newline (fuel + 1) selLen leftover b hsel
        hfuel hl hb
      exact ⟨[], leftover, cs, l1, splitterLoop_eof fuel selLen leftover hsel, by simpa using h1,
        hall⟩
    · have hend : EndsWithNewline a := ha.resolve_left hnil
      obtain ⟨pre, hpre⟩ := hend
      have halen : 0 < a.length := List.length_pos.2 hnil
      have hab : a ++ b ≠ [] := by simp [hnil]
      rw [List.length_append] at hfuel
      by_cases hcase : selLen ≤ a.length
      · -- the block lies within `a`
        have hm1 : min selLen (a ++ b).length = selLen := by
          rw [List.length_append]; omega
        have hm2 : min selLen a.length = selLen := by omega
        have htake : (a ++ b).take selLen = a.take selLen := List.take_append_of_le_length hcase
        have hdrop : (a ++ b).drop selLen = a.drop selLen ++ b :=
          List.drop_append_of_le_length hcase
        have ha' : a.drop selLen = [] ∨ EndsWithNewline (a.drop selLen) := by
          by_cases hd : a.drop selLen = []
          · exact Or.inl hd
          · exact Or.inr (suffix_endsWithNewline (a.take selLen) (a.drop selLen) pre
              (by rw [List.take_append_drop]; exact hpre) hd)
        obtain ⟨c2, l2, extra, l1, h2, h1, hall⟩ :=
          ih selLen ((a.take selLen).drop (cutPoint (a.take selLen))) (a.drop selLen) hsel
            (by rw [List.length_append, List.length_drop]; omega)
            (not_mem_drop_cutPoint _) ha'
        refine ⟨(leftover ++ (a.take selLen).take (cutPoint (a.take selLen))) :: c2, l2, extra,
          l1, ?_, ?_, hall⟩
        · exact splitterLoop_step fuel selLen leftover a hnil selLen hm2.symm _ rfl c2 l2 h2
        · rw [List.cons_append]
          refine splitterLoop_step fuel selLen leftover (a ++ b) hab selLen hm1.symm
            (a.take selLen) htake.symm (c2 ++ extra) l1 ?_
          rw [hdrop]; exact h1
      · -- the block reaches beyond `a`
        have hm2 : min selLen a.length = a.length := by omega
        have hfuel1 : 1 ≤ fuel := by omega
        obtain ⟨g, rfl⟩ : ∃ g, fuel = g + 1 := ⟨fuel - 1, by omega⟩
        have hsel2 : a.take a.length = pre ++ 10 :: [] := by
          rw [List.take_length, hpre]
        have hloop2 : splitterLoop (g + 1 + 1) selLen leftover a = some ([leftover ++ a], []) := by
          have := splitterLoop_step (g + 1) selLen leftover a hnil a.length hm2.symm
            (pre ++ 10 :: []) hsel2.symm [] []
            (by
              rw [drop_cutPoint_append_cons pre [] (by simp), List.drop_length]
              exact splitterLoop_eof g a.length [] (by omega))
          rw [take_cutPoint_append_cons pre [] (by simp), ← hpre] at this
          exact this
        have hk : 10 ∉ b.take (min selLen (a ++ b).length - a.length) :=
          fun h => hb (List.mem_of_mem_take h)
        have hsel1 : (a ++ b).take (min selLen (a ++ b).length)
            = pre ++ 10 :: b.take (min selLen (a ++ b).length - a.length) := by
          rw [List.take_append_eq_append_take, List.take_of_length_le (by
            rw [List.length_append]; omega), hpre]
          simp
        obtain ⟨cs, l1, hrec, hall⟩ := splitterLoop_no_newline (g + 1)
          (min selLen (a ++ b).length)
          (b.take (min selLen (a ++ b).length - a.length))
          ((a ++ b).drop (min selLen (a ++ b).length))
          (by rw [List.length_append]; omega)
          (by rw [List.length_drop, List.length_append]; omega)
          hk
          (fun h => by
            rw [List.drop_append_eq_append_drop, List.drop_of_length_le (by
              rw [List.length_append]; omega), List.nil_append] at h
            exact hb (List.mem_of_mem_drop h))
        have hloop1 := splitterLoop_step (g + 1) selLen leftover (a ++ b) hab
          (min selLen (a ++ b).length) rfl
          (pre ++ 10 :: b.take (min selLen (a ++ b).length - a.length)) hsel1.symm cs l1
          (by rw [drop_cutPoint_append_cons pre _ hk]; exact hrec)
        rw [take_cutPoint_append_cons pre _ hk, ← hpre] at hloop1
        exact ⟨[leftover ++ a], [], cs, l1, hloop2, by simpa using hloop1, hall⟩


/-! ## Chunks without a newline add nothing -/

theorem foldlM_readerStep_no_newline (bs : List Nat) (st : ReaderState) (h : 10 ∉ bs) :
    ∃ st1, bs.foldlM readerStep st = some st1 ∧ st1.res = st.res := by
  induction bs generalizing st with
  | nil => exact ⟨st, rfl, rfl⟩
  | cons b bs ih =>
    have hb : ¬ (b = 10) := fun he => h (by simp [he])
    have h' : 10 ∉ bs := fun hm => h (List.mem_cons_of_mem _ hm)
    rw [List.foldlM_cons]
    by_cases h59 : b = 59
    · obtain ⟨st1, h1, h2⟩ := ih { st with city := st.sb, sb := [] } h'
      exact ⟨st1, by simp [readerStep, h59, h1], h2⟩
    · obtain ⟨st1, h1, h2⟩ := ih { st with sb := st.sb ++ [b] } h'
      exact ⟨st1, by simp [readerStep, h59, hb, h1], h2⟩

theorem ChunkReader_no_newline (chunk : List Nat) (h : 10 ∉ chunk) :
    ChunkReader chunk = some [] := by
  obtain ⟨st1, h1, h2⟩ := foldlM_readerStep_no_newline chunk readerInit h
  unfold ChunkReader
  rw [h1]
  simp [h2, readerInit]

theorem readChunks_cons (chunk : List Nat) (chunks : List (List Nat)) :
    readChunks (chunk :: chunks) =
      match ChunkReader chunk with
      | none => none
      | some m =>
        match readChunks chunks with
        | none => none
        | some ms => some (m :: ms) := rfl

theorem readChunks_append_no_newline (chunks extra : List (List Nat))
    (h : ∀ c ∈ extra, 10 ∉ c) :
    readChunks (chunks ++ extra)
      = (readChunks chunks).map (fun ms => ms ++ extra.map (fun _ => ([] : CityMap))) := by
  induction chunks with
  | nil =>
    simp only [List.nil_append, readChunks, Option.map_some']
    induction extra with
    | nil => rfl
    | cons c extra ih =>
      have hc := ChunkReader_no_newline c (h c (List.mem_cons_self _ _))
      have := ih (fun x hx => h x (List.mem_cons_of_mem _ hx))
      simp only [List.nil_append] at this
      simp [readChunks, hc, this]
  | cons c chunks ih =>
    rw [List.cons_append, readChunks_cons, readChunks_cons, ih]
    cases ChunkReader c with
    | none => rfl
    | some m =>
      cases readChunks chunks with
      | none => rfl
      | some ms => rfl

theorem mergeMap_nil (cities : CityMap) : mergeMap cities [] = cities := rfl

theorem reduceStream_append_empty (ms : List CityMap) (extra : List (List Nat)) :
    reduceStream (ms ++ extra.map (fun _ => ([] : CityMap))) = reduceStream ms := by
  unfold reduceStream
  rw [List.foldl_append]
  induction extra with
  | nil => rfl
  | cons c extra ih => simpa [mergeMap_nil] using ih

theorem truncate_append_drop (input : List Nat) :
    truncateAfterLastNewline input ++ input.drop (cutPoint input) = input := by
  unfold truncateAfterLastNewline
  exact List.take_append_drop _ _

theorem truncate_endsWithNewline (input : List Nat) :
    truncateAfterLastNewline input = [] ∨ EndsWithNewline (truncateAfterLastNewline input) := by
  by_cases h : 10 ∈ input
  · obtain ⟨pre, post, hs, hp⟩ := exists_last_occurrence input 10 h
    right
    refine ⟨pre, ?_⟩
    have := take_cutPoint_append_cons pre post hp
    rw [← hs] at this
    exact this
  · left
    have := cutPoint_of_not_mem input h
    unfold cutPoint at this
    unfold truncateAfterLastNewline
    rw [this]; rfl

theorem Evaluate_truncate (blockSize : Nat) (input : List Nat) (hB : 1 ≤ blockSize) :
    Evaluate blockSize input = Evaluate blockSize (truncateAfterLastNewline input) := by
  have hsplit := truncate_append_drop input
  have hlenle : (truncateAfterLastNewline input).length ≤ input.length := by
    unfold truncateAfterLastNewline
    rw [List.length_take]; omega
  obtain ⟨c2, l2, extra, l1, h2, h1, hall⟩ :=
    splitterLoop_truncate (input.length + 1) blockSize [] (truncateAfterLastNewline input)
      (input.drop (cutPoint input)) (by omega) (by rw [hsplit]; omega)
      (not_mem_drop_cutPoint input) (by simp) (truncate_endsWithNewline input)
  rw [hsplit] at h1
  obtain ⟨c3, l3, h3, _⟩ := splitterLoop_total ((truncateAfterLastNewline input).length + 1)
    blockSize [] (truncateAfterLastNewline input) (by omega) (by omega)
  have h4 := splitterLoop_mono _ (input.length + 1) blockSize [] _ _ h3 (by omega)
  rw [h2] at h4
  have h5 : Splitter blockSize (truncateAfterLastNewline input) = some (c2, l2) := by
    unfold Splitter; rw [h3]; exact h4.symm
  have h6 : Splitter blockSize input = some (c2 ++ extra, l1) := h1
  unfold Evaluate
  rw [h5, h6]
  simp only []
  rw [readChunks_append_no_newline c2 extra hall]
  cases readChunks c2 with
  | none => rfl
  | some ms =>
    simp only [Option.map_some']
    rw [reduceStream_append_empty]


/-! ## Chunks of whole lines -/

theorem lineBytes_eq (name value : List Nat) :
    lineBytes name value = (name ++ 59 :: value) ++ [10] := by
  simp [lineBytes]

theorem GoodLine.body_no_newline {l : List Nat × List Nat} (h : GoodLine l) :
    10 ∉ l.1 ++ 59 :: l.2 := by
  obtain ⟨_, _, hn10, _, hv10, _⟩ := h
  simp only [List.mem_append, List.mem_cons, not_or]
  exact ⟨hn10, by decide, hv10⟩

theorem encodeLines_cons (l : List Nat × List Nat) (ls : List (List Nat × List Nat)) :
    encodeLines (l :: ls) = (l.1 ++ 59 :: l.2) ++ 10 :: encodeLines ls := by
  simp [encodeLines, lineBytes]

theorem encodeLines_append (a b : List (List Nat × List Nat)) :
    encodeLines (a ++ b) = encodeLines a ++ encodeLines b := by
  simp [encodeLines]

/-- A prefix of a file of good lines that is empty or ends with a newline is
itself a file of whole lines, and so is the rest. -/
theorem encodeLines_split (ls : List (List Nat × List Nat)) (x y : List Nat)
    (hgood : ∀ l ∈ ls, GoodLine l) (henc : encodeLines ls = x ++ y)
    (hx : x = [] ∨ EndsWithNewline x) :
    ∃ g1 g2, ls = g1 ++ g2 ∧ x = encodeLines g1 ∧ y = encodeLines g2 := by
  induction ls generalizing x with
  | nil =>
    have h0 : x ++ y = [] := by rw [← henc]; rfl
    obtain ⟨hx0, hy0⟩ := List.append_eq_nil.1 h0
    exact ⟨[], [], rfl, by rw [hx0]; rfl, by rw [hy0]; rfl⟩
  | cons l ls ih =>
    by_cases hnil : x = []
    · subst hnil
      exact ⟨[], l :: ls, rfl, rfl, by simpa using henc.symm⟩
    · obtain ⟨pre, hpre⟩ := hx.resolve_left hnil
      have hbody := (hgood l (List.mem_cons_self _ _)).body_no_newline
      have hx10 : 10 ∈ x := by rw [hpre]; simp
      rw [encodeLines_cons] at henc
      rcases List.append_eq_append_iff.1 henc with ⟨a1, h1, h2⟩ | ⟨c1, h1, h2⟩
      · -- `x = body ++ a1`
        cases a1 with
        | nil =>
          rw [List.append_nil] at h1
          rw [h1] at hx10
          exact absurd hx10 hbody
        | cons t a2 =>
          have ht : t = 10 ∧ encodeLines ls = a2 ++ y := by
            simp only [List.cons_append, List.cons.injEq] at h2
            exact ⟨h2.1.symm, h2.2⟩
          obtain ⟨ht10, hE⟩ := ht
          subst ht10
          have ha2 : a2 = [] ∨ EndsWithNewline a2 := by
            by_cases hd : a2 = []
            · exact Or.inl hd
            · refine Or.inr (suffix_endsWithNewline ((l.1 ++ 59 :: l.2) ++ [10]) a2 pre ?_ hd)
              rw [← hpre, h1]; simp
          obtain ⟨g1, g2, hls, hg1, hg2⟩ :=
            ih a2 (fun z hz => hgood z (List.mem_cons_of_mem _ hz)) hE ha2
          refine ⟨l :: g1, g2, by rw [hls]; rfl, ?_, hg2⟩
          rw [encodeLines_cons, ← hg1, h1]
      · -- `body = x ++ c1`
        have : 10 ∈ l.1 ++ 59 :: l.2 := by
          rw [h1]; exact List.mem_append_left _ hx10
        exact absurd this hbody

theorem encodeLines_no_newline (ls : List (List Nat × List Nat)) (h : 10 ∉ encodeLines ls) :
    ls = [] := by
  cases ls with
  | nil => rfl
  | cons l ls =>
    exfalso
    apply h
    rw [encodeLines_cons]
    simp

theorem lineBytes_length (l : List Nat × List Nat) :
    (lineBytes l.1 l.2).length = (l.1 ++ 59 :: l.2).length + 1 := by
  rw [lineBytes_eq, List.length_append, List.length_singleton]

theorem mem_take_append_cons (a : List Nat) (c : Nat) (e : List Nat) (n : Nat)
    (h : a.length < n) : c ∈ (a ++ c :: e).take n := by
  rw [List.take_append_eq_append_take]
  obtain ⟨k, hk⟩ : ∃ k, n - a.length = k + 1 := ⟨n - a.length - 1, by omega⟩
  rw [hk, List.take_succ_cons]
  simp

/-- The loop of the splitter on a file of good lines none of which is longer
than the buffer: every chunk sent is a group of whole lines, the groups make
up the file, and no leftover remains. -/
theorem splitterLoop_lines (fuel selLen : Nat) (leftover rest : List Nat)
    (ls : List (List Nat × List Nat)) (hsel : selLen ≠ 0) (hfuel : rest.length < fuel)
    (hgood : ∀ l ∈ ls, GoodLine l) (henc : leftover ++ rest = encodeLines ls)
    (hl : 10 ∉ leftover)
    (hbound : rest = [] ∨ ∀ l ∈ ls, (lineBytes l.1 l.2).length ≤ selLen) :
    ∃ groups : List (List (List Nat × List Nat)),
      splitterLoop fuel selLen leftover rest = some (groups.map encodeLines, []) ∧
      groups.flatten = ls := by
  induction fuel generalizing selLen leftover rest ls with
  | zero => omega
  | succ fuel ih =>
    by_cases hr : rest = []
    · subst hr
      rw [List.append_nil] at henc
      have hls : ls = [] := encodeLines_no_newline ls (by rw [← henc]; exact hl)
      subst hls
      have hlo : leftover = [] := by rw [henc]; rfl
      subst hlo
      exact ⟨[], splitterLoop_eof fuel selLen [] hsel, rfl⟩
    · have hb := hbound.resolve_left hr
      have hlen : 0 < rest.length := List.length_pos.2 hr
      cases ls with
      | nil =>
        exfalso
        have h0 : leftover ++ rest = [] := by rw [henc]; rfl
        exact hr (List.append_eq_nil.1 h0).2
      | cons l ls1 =>
        have hbody := (hgood l (List.mem_cons_self _ _)).body_no_newline
        have hline := hb l (List.mem_cons_self _ _)
        rw [lineBytes_length] at hline
        -- the first newline of `rest` lies within the block
        have hfirst : ∃ a1, l.1 ++ 59 :: l.2 = leftover ++ a1 ∧
            rest = a1 ++ 10 :: encodeLines ls1 := by
          have henc1 := henc
          rw [encodeLines_cons] at henc1
          rcases List.append_eq_append_iff.1 henc1 with ⟨a1, h1, h2⟩ | ⟨c1, h1, h2⟩
          · exact ⟨a1, h1, h2⟩
          · cases c1 with
            | nil =>
              exact ⟨[], by rw [h1]; simp, by simpa using h2.symm⟩
            | cons t c2 =>
              exfalso
              have ht : 10 = t := by
                simp only [List.cons_append, List.cons.injEq] at h2
                exact h2.1
              apply hl
              rw [h1, ← ht]; simp
        obtain ⟨a1, hbodyeq, hrest⟩ := hfirst
        have hbl : (l.1 ++ 59 :: l.2).length = leftover.length + a1.length := by
          rw [hbodyeq, List.length_append]
        have hrl : rest.length = a1.length + 1 + (encodeLines ls1).length := by
          rw [hrest]; simp; omega
        have hin : 10 ∈ rest.take (min selLen rest.length) := by
          have hn : a1.length < min selLen rest.length := by omega
          rw [hrest] at hn ⊢
          exact mem_take_append_cons a1 10 _ _ hn
        obtain ⟨pre, post, hs, hp⟩ := exists_last_occurrence _ 10 hin
        have hwhole : leftover ++ rest
            = (leftover ++ (pre ++ [10])) ++ (post ++ rest.drop (min selLen rest.length)) := by
          conv_lhs => rw [← List.take_append_drop (min selLen rest.length) rest, hs]
          simp
        obtain ⟨g1, g2, hls, hg1, hg2⟩ := encodeLines_split (l :: ls1) _ _ hgood
          (henc.symm.trans hwhole) (Or.inr ⟨leftover ++ pre, by simp⟩)
        have hgood2 : ∀ z ∈ g2, GoodLine z := fun z hz =>
          hgood z (by rw [hls]; exact List.mem_append_right _ hz)
        have hbound2 : rest.drop (min selLen rest.length) = [] ∨
            ∀ z ∈ g2, (lineBytes z.1 z.2).length ≤ min selLen rest.length := by
          by_cases hc : selLen ≤ rest.length
          · right
            intro z hz
            have := hb z (by rw [hls]; exact List.mem_append_right _ hz)
            omega
          · left
            exact List.drop_of_length_le (by omega)
        obtain ⟨groups, hrec, hflat⟩ := ih (min selLen rest.length) post
          (rest.drop (min selLen rest.length)) g2 (by omega)
          (by rw [List.length_drop]; omega) hgood2 hg2 hp hbound2
        refine ⟨g1 :: groups, ?_, by rw [List.flatten_cons, hflat, hls]⟩
        have hstep := splitterLoop_step fuel selLen leftover rest hr (min selLen rest.length) rfl
          (pre ++ 10 :: post) hs.symm (groups.map encodeLines) []
          (by rw [drop_cutPoint_append_cons pre post hp]; exact hrec)
        rw [take_cutPoint_append_cons pre post hp] at hstep
        rw [hstep, List.map_cons, hg1]


/-! ## Reading chunk by chunk and as one chunk -/

theorem lineReadings_append (key : List Nat) (a b : List (List Nat × List Nat)) :
    lineReadings key (a ++ b) = lineReadings key a ++ lineReadings key b := by
  simp [lineReadings]

theorem readChunks_groups (groups : List (List (List Nat × List Nat)))
    (hgood : ∀ g ∈ groups, ∀ l ∈ g, GoodLine l) :
    ∃ maps, readChunks (groups.map encodeLines) = some maps ∧
      ∀ cities key, mapGet (maps.foldl mergeMap cities) key
        = optCombine (mapGet cities key) (aggregate (lineReadings key groups.flatten)) := by
  induction groups with
  | nil =>
    exact ⟨[], rfl, fun cities key => by simp [lineReadings, aggregate, optCombine]⟩
  | cons g gs ih =>
    obtain ⟨maps, hmaps, hget⟩ := ih (fun x hx => hgood x (List.mem_cons_of_mem _ hx))
    obtain ⟨m, hm, hnd, hmget⟩ := ChunkReader_encodeLines g (hgood g (List.mem_cons_self _ _))
    refine ⟨m :: maps, ?_, ?_⟩
    · rw [List.map_cons, readChunks_cons, hm, hmaps]
    · intro cities key
      rw [List.foldl_cons, hget, mapGet_mergeMap_of_nodup cities m key hnd, hmget,
        List.flatten_cons, lineReadings_append, aggregate_append, optCombine_assoc]

/-- A file of good lines, none longer than the block, gives the same global
map chunk by chunk as `ChunkReader` gives for the whole file. -/
theorem Evaluate_lines (blockSize : Nat) (ls : List (List Nat × List Nat))
    (hB : 1 ≤ blockSize) (hgood : ∀ l ∈ ls, GoodLine l)
    (hbound : ∀ l ∈ ls, (lineBytes l.1 l.2).length ≤ blockSize) :
    ∃ whole global, ChunkReader (encodeLines ls) = some whole ∧
      Evaluate blockSize (encodeLines ls) = some global ∧ MapEq global whole := by
  obtain ⟨whole, hwhole, _, hwget⟩ := ChunkReader_encodeLines ls hgood
  obtain ⟨groups, hsplit, hflat⟩ := splitterLoop_lines ((encodeLines ls).length + 1) blockSize []
    (encodeLines ls) ls (by omega) (by omega) hgood (by simp) (by simp) (Or.inr hbound)
  have hgg : ∀ g ∈ groups, ∀ l ∈ g, GoodLine l := by
    intro g hg l hl
    exact hgood l (by rw [← hflat]; exact List.mem_flatten.2 ⟨g, hg, hl⟩)
  obtain ⟨maps, hmaps, hget⟩ := readChunks_groups groups hgg
  refine ⟨whole, reduceStream maps, hwhole, ?_, ?_⟩
  · unfold Evaluate Splitter
    rw [hsplit]
    simp only []
    unfold readChunks at hmaps ⊢
    rw [hmaps]; rfl
  · intro key
    unfold reduceStream
    rw [hget [] key, hflat, hwget]
    exact optCombine_none_left _


/-! ## The keys of the result map -/

/-- A station name as the result map may hold it as a key. -/
theorem mem_keys_addReading (res : CityMap) (city : List Nat) (temp : Int) (key : List Nat)
    (h : key ∈ (addReading res city temp).map Prod.fst) :
    key = city ∨ key ∈ res.map Prod.fst := by
  unfold addReading at h
  cases hg : mapGet res city with
  | none => rw [hg] at h; exact (mem_keys_mapSet res city _ key).1 h
  | some w => rw [hg] at h; exact (mem_keys_mapSet res city _ key).1 h

theorem readerStep_keys (st st1 : ReaderState) (char : Nat)
    (hstep : readerStep st char = some st1)
    (hsb : 59 ∉ st.sb ∧ 10 ∉ st.sb) (hcity : 59 ∉ st.city ∧ 10 ∉ st.city)
    (hkeys : ∀ key ∈ st.res.map Prod.fst, key ≠ [] ∧ 59 ∉ key ∧ 10 ∉ key) :
    (59 ∉ st1.sb ∧ 10 ∉ st1.sb) ∧ (59 ∉ st1.city ∧ 10 ∉ st1.city) ∧
      ∀ key ∈ st1.res.map Prod.fst, key ≠ [] ∧ 59 ∉ key ∧ 10 ∉ key := by
  unfold readerStep at hstep
  split_ifs at hstep with h1 h2 h3
  · simp only [Option.some.injEq] at hstep; subst hstep
    exact ⟨by simp, hsb, hkeys⟩
  · cases hc : ConvertStringToInt64 st.sb with
    | none => rw [hc] at hstep; simp at hstep
    | some temp =>
      rw [hc] at hstep
      simp only [Option.some.injEq] at hstep
      subst hstep
      refine ⟨by simp, hcity, ?_⟩
      intro key hkey
      rcases mem_keys_addReading st.res st.city temp key hkey with hk | hk
      · rw [hk]
        refine ⟨?_, hcity.1, hcity.2⟩
        intro hnil
        apply h3.2
        rw [hnil]; rfl
      · exact hkeys key hk
  · simp only [Option.some.injEq] at hstep; subst hstep
    exact ⟨hsb, hcity, hkeys⟩
  · simp only [Option.some.injEq] at hstep; subst hstep
    refine ⟨?_, hcity, hkeys⟩
    simp only [List.mem_append, List.mem_singleton, not_or]
    exact ⟨⟨hsb.1, fun h => h1 h.symm⟩, ⟨hsb.2, fun h => h2 h.symm⟩⟩

theorem foldlM_readerStep_keys (buf : List Nat) (st st1 : ReaderState)
    (hrun : buf.foldlM readerStep st = some st1)
    (hsb : 59 ∉ st.sb ∧ 10 ∉ st.sb) (hcity : 59 ∉ st.city ∧ 10 ∉ st.city)
    (hkeys : ∀ key ∈ st.res.map Prod.fst, key ≠ [] ∧ 59 ∉ key ∧ 10 ∉ key) :
    ∀ key ∈ st1.res.map Prod.fst, key ≠ [] ∧ 59 ∉ key ∧ 10 ∉ key := by
  induction buf generalizing st with
  | nil =>
    simp only [List.foldlM_nil, Option.pure_def, Option.some.injEq] at hrun
    subst hrun; exact hkeys
  | cons b buf ih =>
    rw [List.foldlM_cons] at hrun
    cases hs : readerStep st b with
    | none => rw [hs] at hrun; simp at hrun
    | some st2 =>
      rw [hs] at hrun
      simp only [Option.bind_eq_bind, Option.some_bind] at hrun
      obtain ⟨h1, h2, h3⟩ := readerStep_keys st st2 b hs hsb hcity hkeys
      exact ih st2 hrun h1 h2 h3

theorem ChunkReader_keys (buf : List Nat) (m : CityMap) (hm : ChunkReader buf = some m) :
    ∀ key ∈ m.map Prod.fst, key ≠ [] ∧ 59 ∉ key ∧ 10 ∉ key := by
  unfold ChunkReader at hm
  cases hrun : buf.foldlM readerStep readerInit with
  | none => rw [hrun] at hm; simp at hm
  | some st1 =>
    rw [hrun] at hm
    simp only [Option.map_some', Option.some.injEq] at hm
    subst hm
    exact foldlM_readerStep_keys buf readerInit st1 hrun (by simp [readerInit])
      (by simp [readerInit]) (by simp [readerInit])

/-! ## When `ChunkReader` fails -/

theorem ConvertStringToInt64_eq_none_iff (input : List Nat) :
    ConvertStringToInt64 input = none ↔ input.length < 2 := by
  unfold ConvertStringToInt64
  split_ifs with h
  · simp [h]
  · simp [h]

theorem conversionInputsFrom_ne_nil (sb city buf : List Nat) :
    ∀ v ∈ conversionInputsFrom sb city buf, v ≠ [] := by
  induction buf generalizing sb city with
  | nil => simp [conversionInputsFrom]
  | cons c buf ih =>
    intro v hv
    unfold conversionInputsFrom at hv
    split_ifs at hv with h1 h2 h3
    · exact ih _ _ v hv
    · rcases List.mem_cons.1 hv with h | h
      · rw [h]; intro hnil; apply h3.1; rw [hnil]; rfl
      · exact ih _ _ v h
    · exact ih _ _ v hv
    · exact ih _ _ v hv

theorem foldlM_readerStep_isSome_iff (buf : List Nat) (st : ReaderState) :
    (buf.foldlM readerStep st).isSome = true ↔
      ∀ v ∈ conversionInputsFrom st.sb st.city buf, 2 ≤ v.length := by
  induction buf generalizing st with
  | nil => simp [conversionInputsFrom]
  | cons c buf ih =>
    rw [List.foldlM_cons]
    unfold conversionInputsFrom
    by_cases h1 : c = 59
    · simp only [readerStep, h1, if_true, Option.bind_eq_bind, Option.some_bind]
      exact ih _
    · by_cases h2 : c = 10
      · subst h2
        have h59 : ¬ ((10 : Nat) = 59) := by decide
        by_cases h3 : st.sb.length ≠ 0 ∧ st.city.length ≠ 0
        · rw [if_neg h59, if_pos rfl, if_pos h3]
          by_cases hlen : st.sb.length < 2
          · have hnone := (ConvertStringToInt64_eq_none_iff st.sb).2 hlen
            simp only [readerStep, h59, if_false, if_true, h3, and_self, ne_eq,
              not_false_eq_true, hnone]
            simp only [Option.bind_eq_bind, Option.none_bind, Option.isSome_none,
              Bool.false_eq_true, List.mem_cons, forall_eq_or_imp, false_iff, not_and]
            intro h; omega
          · simp only [readerStep, h59, if_false, if_true, h3, and_self, ne_eq,
              not_false_eq_true, ConvertStringToInt64_of_length st.sb (by omega)]
            simp only [Option.bind_eq_bind, Option.some_bind, List.mem_cons, forall_eq_or_imp]
            rw [ih]
            constructor
            · intro h; exact ⟨by omega, h⟩
            · intro h; exact h.2
        · rw [if_neg h59, if_pos rfl, if_neg h3]
          simp only [readerStep, h59, if_false, if_true, h3, Option.bind_eq_bind,
            Option.some_bind]
          exact ih _
      · simp only [readerStep, h1, h2, if_false, Option.bind_eq_bind, Option.some_bind]
        exact ih _

theorem ChunkReader_isSome_iff (buf : List Nat) :
    ChunkReader buf ≠ none ↔ ∀ v ∈ conversionInputs buf, v.length ≠ 1 := by
  have h := foldlM_readerStep_isSome_iff buf readerInit
  have hne := conversionInputsFrom_ne_nil [] [] buf
  unfold ChunkReader conversionInputs
  simp only [readerInit] at h
  constructor
  · intro hsome v hv
    have hs : (buf.foldlM readerStep readerInit).isSome = true := by
      cases hr : buf.foldlM readerStep readerInit with
      | none => rw [hr] at hsome; simp at hsome
      | some _ => rfl
    have := (h.1 hs) v hv
    omega
  · intro hall
    have hs : (buf.foldlM readerStep readerInit).isSome = true := by
      apply h.2
      intro v hv
      have h1 := hall v hv
      have h0 : v.length ≠ 0 := fun h0 => hne v hv (List.length_eq_zero.1 h0)
      omega
    cases hr : buf.foldlM readerStep readerInit with
    | none => rw [hr] at hs; simp at hs
    | some _ => simp


/-! ## A line with an empty value -/

theorem foldlM_readerStep_empty_value (name : List Nat) (h59 : 59 ∉ name) (h10 : 10 ∉ name)
    (res : CityMap) (city : List Nat) :
    (lineBytes name []).foldlM readerStep { sb := [], res := res, city := city }
      = some { sb := [], res := res, city := name } := by
  unfold lineBytes
  rw [List.foldlM_append, foldlM_readerStep_plain _ _ h59 h10]
  simp [readerStep]

theorem ChunkReader_insert_empty_value (ls1 ls2 : List (List Nat × List Nat)) (name : List Nat)
    (h1 : ∀ l ∈ ls1, GoodLine l) (h2 : ∀ l ∈ ls2, GoodLine l)
    (h59 : 59 ∉ name) (h10 : 10 ∉ name) :
    ∃ m, ChunkReader (encodeLines ls1 ++ lineBytes name [] ++ encodeLines ls2) = some m ∧
      ChunkReader (encodeLines (ls1 ++ ls2)) = some m := by
  obtain ⟨c1, hr1⟩ := foldlM_readerStep_lines ls1 h1 [] []
  obtain ⟨c2, hr2⟩ := foldlM_readerStep_lines ls2 h2
    (ls1.foldl (fun r l => addReading r l.1 (parsedValue l.2)) []) name
  obtain ⟨c3, hr3⟩ := foldlM_readerStep_lines ls2 h2
    (ls1.foldl (fun r l => addReading r l.1 (parsedValue l.2)) []) c1
  refine ⟨ls2.foldl (fun r l => addReading r l.1 (parsedValue l.2))
    (ls1.foldl (fun r l => addReading r l.1 (parsedValue l.2)) []), ?_, ?_⟩
  · unfold ChunkReader readerInit
    rw [List.foldlM_append, List.foldlM_append, hr1]
    simp only [Option.bind_eq_bind, Option.some_bind]
    rw [foldlM_readerStep_empty_value name h59 h10]
    simp only [Option.some_bind]
    rw [hr2]; rfl
  · unfold ChunkReader readerInit
    rw [encodeLines_append, List.foldlM_append, hr1]
    simp only [Option.bind_eq_bind, Option.some_bind]
    rw [hr3]; rfl

/-! ## The number of workers -/

theorem startWorkersLoop_eq (numCPU : Int) (fuel : Nat) (i : Int) (started : Nat)
    (h : (numCPU - 1 - i).toNat < fuel) :
    startWorkersLoop numCPU fuel i started = some (started + (numCPU - 1 - i).toNat) := by
  induction fuel generalizing i started with
  | zero => omega
  | succ fuel ih =>
    unfold startWorkersLoop
    by_cases hi : i < numCPU - 1
    · rw [if_pos hi, ih (i + 1) (started + 1) (by omega)]
      congr 1
      omega
    · rw [if_neg hi]
      congr 1
      omega

theorem workersStarted_eq (numCPU : Int) : workersStarted numCPU = some (numCPU - 1).toNat := by
  unfold workersStarted
  rw [startWorkersLoop_eq numCPU _ 0 0 (by omega)]
  congr 1
  omega

/-! ## Texts `ParseInt` refuses -/

theorem ParseUintLoop_digits_append (ds : List Nat) (tail : List Nat) (n : Nat)
    (hd : ∀ d ∈ ds, d < 10) (hb : ds.foldl (fun n d => n * 10 + d) n ≤ maxUint64) :
    ParseUintLoop (digitBytes ds ++ tail) n
      = ParseUintLoop tail (ds.foldl (fun n d => n * 10 + d) n) := by
  induction ds generalizing n with
  | nil => simp [digitBytes]
  | cons d ds ih =>
    have hd10 : d < 10 := hd d (List.mem_cons_self _ _)
    simp only [List.foldl_cons] at hb ⊢
    have hle := foldl_digits_le ds (n * 10 + d)
    have hrec := ih (n * 10 + d) (fun x hx => hd x (List.mem_cons_of_mem _ hx)) hb
    unfold maxUint64 at hb
    have h1 : 48 ≤ d + 48 ∧ d + 48 ≤ 57 := by omega
    have h2 : ¬ (d + 48 - 48 ≥ 10) := by omega
    have h3 : ¬ (n ≥ parseUintCutoff) := by
      unfold parseUintCutoff maxUint64; omega
    have e1 : (n * 10) % 18446744073709551616 = n * 10 := by omega
    have e2 : (n * 10 + (d + 48 - 48)) % 18446744073709551616 = n * 10 + d := by omega
    have h4 : ¬ (n * 10 + d < n * 10 ∨ n * 10 + d > maxUint64) := by
      unfold maxUint64; omega
    simp only [digitBytes, List.map_cons, List.cons_append, ParseUintLoop, h1, and_self,
      if_true, h2, h3, if_false, e1, e2, h4]
    exact hrec

theorem ParseUintLoop_not_digit (c : Nat) (rest : List Nat) (n : Nat)
    (hc : ¬ (48 ≤ c ∧ c ≤ 57)) :
    ParseUintLoop (c :: rest) n = (0, some NumError.ErrSyntax) := by
  unfold ParseUintLoop
  simp only [hc, if_false]
  by_cases hl : 97 ≤ lower c ∧ lower c ≤ 122
  · have : lower c - 97 + 10 ≥ 10 := Nat.le_add_left 10 _
    simp [hl, this]
  · simp [hl]

theorem ParseUint_refused (ds : List Nat) (tail : List Nat)
    (hd : ∀ d ∈ ds, d < 10) (hb : decimalValue ds ≤ maxUint64)
    (ht : match tail with
      | [] => ds = []
      | c :: _ => ¬ (48 ≤ c ∧ c ≤ 57)) :
    ParseUint (digitBytes ds ++ tail) = (0, some NumError.ErrSyntax) := by
  cases tail with
  | nil =>
    simp only [] at ht
    subst ht
    rfl
  | cons c rest =>
    simp only [] at ht
    unfold ParseUint
    rw [if_neg (by simp), ParseUintLoop_digits_append ds (c :: rest) 0 hd hb,
      ParseUintLoop_not_digit c rest _ ht]

theorem ParseInt_of_ParseUint_refused (c : Nat) (rest : List Nat)
    (h : ParseUint (if c = 43 then rest else if c = 45 then rest else c :: rest)
      = (0, some NumError.ErrSyntax)) :
    ParseInt (c :: rest) = (0, some NumError.ErrSyntax) := by
  unfold ParseInt
  simp only []
  rw [h]

theorem ParseInt_refused (t : List Nat) (h : SyntaxRefused t) :
    ParseInt t = (0, some NumError.ErrSyntax) := by
  obtain ⟨sign, ds, tail, ht, hsign, hd, hb, htail⟩ := h
  have hU : ParseUint (digitBytes ds ++ tail) = (0, some NumError.ErrSyntax) := by
    apply ParseUint_refused ds tail hd hb
    cases tail with
    | nil => exact htail
    | cons c rest => exact htail.1
  rcases hsign with hs | hs | hs
  · -- no sign
    subst hs
    rw [List.nil_append] at ht
    cases ds with
    | nil =>
      cases tail with
      | nil => subst ht; rfl
      | cons c rest =>
        have hc := htail.2 rfl rfl
        subst ht
        apply ParseInt_of_ParseUint_refused
        rw [if_neg hc.1, if_neg hc.2]
        exact hU
    | cons d ds1 =>
      have hd10 : d < 10 := hd d (List.mem_cons_self _ _)
      have hcons : digitBytes (d :: ds1) ++ tail = (d + 48) :: (digitBytes ds1 ++ tail) := by
        simp [digitBytes]
      rw [hcons] at ht hU
      subst ht
      apply ParseInt_of_ParseUint_refused
      rw [if_neg (by omega), if_neg (by omega)]
      exact hU
  · subst hs
    have ht' : t = 43 :: (digitBytes ds ++ tail) := by rw [ht]; simp
    subst ht'
    apply ParseInt_of_ParseUint_refused
    rw [if_pos rfl]
    exact hU
  · subst hs
    have ht' : t = 45 :: (digitBytes ds ++ tail) := by rw [ht]; simp
    subst ht'
    apply ParseInt_of_ParseUint_refused
    rw [if_neg (by decide), if_pos rfl]
    exact hU

theorem ConvertStringToInt64_refused (input : List Nat) (hlen : 2 ≤ input.length)
    (h : SyntaxRefused (cutText input)) : ConvertStringToInt64 input = some 0 := by
  unfold ConvertStringToInt64
  rw [if_neg (by omega)]
  have := ParseInt_refused (cutText input) h
  unfold cutText at this
  simp only [this]


/-! ## The mean between the extremes -/

theorem mul_length_le_sum (l : List Int) (m : Int) (h : ∀ v ∈ l, m ≤ v) :
    m * (l.length : Int) ≤ l.sum := by
  induction l with
  | nil => simp
  | cons v l ih =>
    have h1 := h v (List.mem_cons_self _ _)
    have h2 := ih (fun x hx => h x (List.mem_cons_of_mem _ hx))
    simp only [List.length_cons, List.sum_cons]
    push_cast
    rw [mul_add, mul_one]
    omega

theorem sum_le_mul_length (l : List Int) (m : Int) (h : ∀ v ∈ l, v ≤ m) :
    l.sum ≤ m * (l.length : Int) := by
  induction l with
  | nil => simp
  | cons v l ih =>
    have h1 := h v (List.mem_cons_self _ _)
    have h2 := ih (fun x hx => h x (List.mem_cons_of_mem _ hx))
    simp only [List.length_cons, List.sum_cons]
    push_cast
    rw [mul_add, mul_one]
    omega

theorem meanBounds_of_aggregateOf (w : Weather) (l : List Int) (h : AggregateOf w l)
    (hsum : InInt64 l.sum) : MeanBounds w := by
  obtain ⟨hc, hs, ⟨_, hmin⟩, ⟨_, hmax⟩⟩ := h
  unfold MeanBounds
  rw [hc, hs, wrapInt64_of_inInt64 hsum]
  exact ⟨mul_length_le_sum l w.Min hmin, sum_le_mul_length l w.Max hmax⟩

theorem goodWeather_of_aggregateOf (w : Weather) (l : List Int) (h : AggregateOf w l)
    (hne : l ≠ []) : GoodWeather w := by
  obtain ⟨hc, _, ⟨hmem, hmin⟩, ⟨hmem2, _⟩⟩ := h
  refine ⟨hmin w.Max hmem2, ?_⟩
  rw [hc]
  have : 0 < l.length := List.length_pos.2 hne
  omega

theorem combine_meanBounds (a b : Weather) (ha : GoodWeather a) (hb : GoodWeather b)
    (hma : MeanBounds a) (hmb : MeanBounds b) (hsum : InInt64 (a.Sum + b.Sum))
    (hcount : a.Count + b.Count ≤ 9223372036854775807) : MeanBounds (combine a b) := by
  unfold MeanBounds GoodWeather at *
  rw [combine_Min, combine_Max, combine_Sum, combine_Count, wrapInt64_of_inInt64 hsum,
    wrapInt64_of_inInt64 (by unfold InInt64; omega)]
  have hca : (0 : Int) ≤ a.Count := by omega
  have hcb : (0 : Int) ≤ b.Count := by omega
  constructor
  · have h1 : min a.Min b.Min * a.Count ≤ a.Min * a.Count :=
      mul_le_mul_of_nonneg_right (min_le_left _ _) hca
    have h2 : min a.Min b.Min * b.Count ≤ b.Min * b.Count :=
      mul_le_mul_of_nonneg_right (min_le_right _ _) hcb
    rw [mul_add]
    omega
  · have h1 : a.Max * a.Count ≤ max a.Max b.Max * a.Count :=
      mul_le_mul_of_nonneg_right (le_max_left _ _) hca
    have h2 : b.Max * b.Count ≤ max a.Max b.Max * b.Count :=
      mul_le_mul_of_nonneg_right (le_max_right _ _) hcb
    rw [mul_add]
    omega

theorem tdiv_between (s c m M : Int) (hc : 1 ≤ c) (h1 : m * c ≤ s) (h2 : s ≤ M * c) :
    m ≤ Int.tdiv s c ∧ Int.tdiv s c ≤ M := by
  have hc0 : 0 < c := by omega
  by_cases hs : 0 ≤ s
  · rw [Int.tdiv_eq_ediv hs (by omega)]
    exact ⟨Int.le_ediv_of_mul_le hc0 h1, Int.ediv_le_of_le_mul hc0 h2⟩
  · have hneg : 0 ≤ -s := by omega
    have e : Int.tdiv s c = -((-s) / c) := by
      rw [← Int.tdiv_eq_ediv hneg (by omega), Int.neg_tdiv, neg_neg]
    rw [e]
    have a1 : (-s) / c ≤ -m := Int.ediv_le_of_le_mul hc0 (by rw [neg_mul]; omega)
    have a2 : -M ≤ (-s) / c := Int.le_ediv_of_mul_le hc0 (by rw [neg_mul]; omega)
    omega

theorem tdiv_inInt64 (s c : Int) (hc : 1 ≤ c) (hs : InInt64 s) : InInt64 (Int.tdiv s c) := by
  have hc0 : 0 < c := by omega
  unfold InInt64 at *
  by_cases h0 : 0 ≤ s
  · rw [Int.tdiv_eq_ediv h0 (by omega)]
    have h1 : s / c ≤ s := Int.ediv_le_self c h0
    have h2 : 0 ≤ s / c := Int.ediv_nonneg h0 (by omega)
    omega
  · have hneg : 0 ≤ -s := by omega
    have e : Int.tdiv s c = -((-s) / c) := by
      rw [← Int.tdiv_eq_ediv hneg (by omega), Int.neg_tdiv, neg_neg]
    rw [e]
    have h1 : (-s) / c ≤ -s := Int.ediv_le_self c hneg
    have h2 : 0 ≤ (-s) / c := Int.ediv_nonneg hneg (by omega)
    omega

theorem meanQuotient_between (w : Weather) (hg : GoodWeather w) (hm : MeanBounds w)
    (hs : InInt64 w.Sum) :
    meanQuotient w = some (Int.tdiv w.Sum w.Count) ∧
      w.Min ≤ Int.tdiv w.Sum w.Count ∧ Int.tdiv w.Sum w.Count ≤ w.Max := by
  have hc := hg.2
  refine ⟨?_, tdiv_between w.Sum w.Count w.Min w.Max hc hm.1 hm.2⟩
  unfold meanQuotient
  rw [if_neg (by omega), wrapInt64_of_inInt64 (tdiv_inInt64 w.Sum w.Count hc hs)]

theorem Temperature.dot_mem_bytes (t : Temperature) : 46 ∈ t.bytes := by
  simp [Temperature.bytes]

/-- For a chunk of well-formed records in which the sum of the readings of
every station fits an `int64`, every aggregate sent satisfies the invariant,
has its sum between the extremes taken `Count` times, and holds an `int64`
sum. -/
theorem ChunkReader_meanBounds (rs : List Record)
    (hwf : ∀ r ∈ rs, r.WellFormed ∧ InInt64 r.temp.scaled)
    (hlen : (encodeRecords rs).length < 9223372036854775808)
    (hsum : ∀ r ∈ rs, InInt64 (readingsOf r.name rs).sum) :
    ∃ m, ChunkReader (encodeRecords rs) = some m ∧
      ∀ name w, mapGet m name = some w → GoodWeather w ∧ MeanBounds w ∧ InInt64 w.Sum := by
  obtain ⟨m, hm, _, hget⟩ := ChunkReader_encodeLines (rs.map Record.line) (by
    intro l hl
    obtain ⟨r, hr, rfl⟩ := List.mem_map.1 hl
    exact r.goodLine (hwf r hr).1)
  rw [encodeLines_records] at hm
  refine ⟨m, hm, fun name w hw => ?_⟩
  rw [hget, lineReadings_records name rs hwf] at hw
  have hne : readingsOf name rs ≠ [] := by
    intro hnil
    rw [(aggregate_eq_none_iff _).2 hnil] at hw
    simp at hw
  have hagg : AggregateOf w (readingsOf name rs) := by
    refine aggregate_spec _ ?_ ?_ w hw
    · intro v hv
      unfold readingsOf at hv
      obtain ⟨r, hr, rfl⟩ := List.mem_map.1 hv
      exact (hwf r (List.mem_filter.1 hr).1).2
    · have := readingsOf_length_le name rs
      omega
  have hfit : InInt64 (readingsOf name rs).sum := by
    have hex : ¬ ∀ r ∈ rs, r.name ≠ name := fun h => hne ((readingsOf_eq_nil_iff name rs).2 h)
    push_neg at hex
    obtain ⟨r, hr, hrn⟩ := hex
    rw [← hrn]
    exact hsum r hr
  refine ⟨goodWeather_of_aggregateOf w _ hagg hne,
    meanBounds_of_aggregateOf w _ hagg hfit, ?_⟩
  rw [hagg.2.1]
  exact wrapInt64_inInt64 _


/-! ## The mean that is printed -/

theorem float64Shift_of_lt (fuel a : Nat) (h : a < 9007199254740992) :
    float64Shift fuel a = 0 := by
  cases fuel with
  | zero => rfl
  | succ fuel => simp [float64Shift, h]

/-- A `float64` holds every integer of absolute value at most 2^53. -/
theorem float64OfInt64_exact (x : Int) (h : x.natAbs ≤ 9007199254740992) :
    float64OfInt64 x = x := by
  by_cases hlt : x.natAbs < 9007199254740992
  · unfold float64OfInt64
    simp only [float64Shift_of_lt 64 _ hlt, pow_zero, Nat.div_one, Nat.mod_one, Nat.mul_zero,
      Nat.mul_one]
    have hc : ¬ ((0 : Nat) > 1 ∨ ((0 : Nat) = 1 ∧ x.natAbs % 2 = 1)) := by omega
    rw [if_neg hc]
    split_ifs <;> omega
  · have heq : x.natAbs = 9007199254740992 := by omega
    have hx : x = 9007199254740992 ∨ x = -9007199254740992 := by omega
    rcases hx with hx | hx <;> subst hx <;> decide

theorem printedMean_of_quotient (w : Weather) (q : Int) (hq : meanQuotient w = some q)
    (hsmall : q.natAbs ≤ 9007199254740992) : printedMean w = some q := by
  unfold printedMean
  rw [hq]
  simp only [mathRound, float64OfInt64_exact q hsmall]

theorem meanBetween_of_bounds (w : Weather) (hg : GoodWeather w) (hm : MeanBounds w)
    (hs : InInt64 w.Sum) : MeanBetween w := by
  obtain ⟨h1, h2, h3⟩ := meanQuotient_between w hg hm hs
  exact ⟨h1, h2, h3, printedMean_of_quotient w _ h1⟩


/-! ## The claims -/

/-- C1 (amended): for every chunk that is a concatenation of well-formed
records whose scaled values fit an `int64` (the chunk, a Go slice, being
shorter than 2^63 bytes), `ChunkReader` sends a map whose keys are exactly the
names occurring in the chunk; for each name Count is the number of its
records, Sum is the sum of its scaled values wrapped to 64 bits (the exact sum
whenever that fits), Min and Max are the least and the greatest of them; and
the aggregate of a station is determined by the readings of that station
alone. -/
theorem chunkReader_aggregates (rs : List Record)
    (hwf : ∀ r ∈ rs, r.WellFormed ∧ InInt64 r.temp.scaled)
    (hlen : (encodeRecords rs).length < 9223372036854775808) :
    ∃ m, ChunkReader (encodeRecords rs) = some m ∧
      ∀ name, (mapGet m name = none ↔ ∀ r ∈ rs, r.name ≠ name) ∧
        (∀ w, mapGet m name = some w → AggregateOf w (readingsOf name rs)) ∧
        mapGet m name = aggregate (readingsOf name rs) := by
  obtain ⟨m, hm, _, hget⟩ := ChunkReader_encodeLines (rs.map Record.line) (by
    intro l hl
    obtain ⟨r, hr, rfl⟩ := List.mem_map.1 hl
    exact r.goodLine (hwf r hr).1)
  rw [encodeLines_records] at hm
  refine ⟨m, hm, fun name => ?_⟩
  have hg : mapGet m name = aggregate (readingsOf name rs) := by
    rw [hget, lineReadings_records name rs hwf]
  refine ⟨?_, ?_, hg⟩
  · rw [hg, aggregate_eq_none_iff, readingsOf_eq_nil_iff]
  · intro w hw
    rw [hg] at hw
    refine aggregate_spec _ ?_ ?_ w hw
    · intro v hv
      unfold readingsOf at hv
      obtain ⟨r, hr, rfl⟩ := List.mem_map.1 hv
      exact (hwf r (List.mem_filter.1 hr).1).2
    · have := readingsOf_length_le name rs
      omega

/-- C1, witness: the chunk `Hamburg;12.3\nBerlin;-5.5\nHamburg;8.0\n`. -/
theorem chunkReader_aggregates_witness :
    (∀ r ∈ hamburgBerlin, r.WellFormed ∧ InInt64 r.temp.scaled) ∧
    (encodeRecords hamburgBerlin).length < 9223372036854775808 ∧
    encodeRecords hamburgBerlin = asciiBytes "Hamburg;12.3\nBerlin;-5.5\nHamburg;8.0\n" ∧
    ChunkReader (asciiBytes "Hamburg;12.3\nBerlin;-5.5\nHamburg;8.0\n")
      = some [(asciiBytes "Hamburg", ⟨80, 123, 203, 2⟩), (asciiBytes "Berlin", ⟨-55, -55, -55, 1⟩)] ∧
    ∃ m, ChunkReader (encodeRecords hamburgBerlin) = some m ∧
      ∀ name, (mapGet m name = none ↔ ∀ r ∈ hamburgBerlin, r.name ≠ name) ∧
        (∀ w, mapGet m name = some w → AggregateOf w (readingsOf name hamburgBerlin)) ∧
        mapGet m name = aggregate (readingsOf name hamburgBerlin) :=
  ⟨by decide, by decide, by decide, by decide,
    chunkReader_aggregates hamburgBerlin (by decide) (by decide)⟩

/-- C1, counterexample to the claim as stated: two well-formed records of one
station, each with the scaled value 2^63 - 1. The exact sum is 2^64 - 2, the
Sum of the aggregate sent is -2. -/
theorem chunkReader_sum_wraps :
    (∀ r ∈ overflowRecords, r.WellFormed ∧ InInt64 r.temp.scaled) ∧
    encodeRecords overflowRecords
      = asciiBytes "A;922337203685477580.7\nA;922337203685477580.7\n" ∧
    ChunkReader (encodeRecords overflowRecords)
      = some [(asciiBytes "A", ⟨9223372036854775807, 9223372036854775807, -2, 2⟩)] ∧
    (readingsOf (asciiBytes "A") overflowRecords).sum = 18446744073709551614 := by
  refine ⟨by decide, by decide, by decide, by decide⟩

/-- C2: for every text matching `-?[0-9]+\.[0-9]` whose value times 10 fits an
`int64`, `ConvertStringToInt64` returns exactly that value times 10. -/
theorem convertStringToInt64_scaled (t : Temperature) (hwf : t.WellFormed)
    (hfit : InInt64 t.scaled) : ConvertStringToInt64 t.bytes = some t.scaled :=
  ConvertStringToInt64_temperature t hwf hfit

/-- C2, witnesses: `12.3` gives 123, `-0.5` gives -5 and `40.0` gives 400. -/
theorem convertStringToInt64_scaled_witness :
    ConvertStringToInt64 (asciiBytes "12.3") = some 123 ∧
    ConvertStringToInt64 (asciiBytes "-0.5") = some (-5) ∧
    ConvertStringToInt64 (asciiBytes "40.0") = some 400 :=
  ⟨convertStringToInt64_scaled ⟨false, [1, 2], 3⟩ (by decide) (by decide),
   convertStringToInt64_scaled ⟨true, [0], 5⟩ (by decide) (by decide),
   convertStringToInt64_scaled ⟨false, [4, 0], 0⟩ (by decide) (by decide)⟩

/-- C4: the combine of the reducer, with Sum and Count added as 64-bit
integers, is commutative and associative. -/
theorem combine_comm_assoc (A B C : Weather) :
    combine A B = combine B A ∧ combine (combine A B) C = combine A (combine B C) :=
  ⟨combine_comm A B, combine_assoc A B C⟩

/-- C5: folding a list of partial maps into the empty global map with the
reducer loop gives the same global map for every permutation of the list. -/
theorem reduce_order_independent (s1 s2 : List CityMap) (h : s1.Perm s2) :
    MapEq (reduceStream s1) (reduceStream s2) :=
  reduceStream_perm s1 s2 h

/-- C5, witness: two partial maps with a common station, in both orders. -/
theorem reduce_order_independent_witness :
    List.Perm
      [[(asciiBytes "a", (⟨10, 30, 40, 2⟩ : Weather)), (asciiBytes "b", ⟨5, 5, 5, 1⟩)],
        [(asciiBytes "a", ⟨-7, 12, 5, 2⟩)]]
      [[(asciiBytes "a", ⟨-7, 12, 5, 2⟩)],
        [(asciiBytes "a", ⟨10, 30, 40, 2⟩), (asciiBytes "b", ⟨5, 5, 5, 1⟩)]] ∧
    MapEq
      (reduceStream [[(asciiBytes "a", ⟨10, 30, 40, 2⟩), (asciiBytes "b", ⟨5, 5, 5, 1⟩)],
        [(asciiBytes "a", ⟨-7, 12, 5, 2⟩)]])
      (reduceStream [[(asciiBytes "a", ⟨-7, 12, 5, 2⟩)],
        [(asciiBytes "a", ⟨10, 30, 40, 2⟩), (asciiBytes "b", ⟨5, 5, 5, 1⟩)]]) :=
  ⟨List.Perm.swap _ _ _, reduce_order_independent _ _ (List.Perm.swap _ _ _)⟩


/-- C6, the code at a failing input: with a block of 3 bytes the file
`ab;1.0\n` is sent as the chunks ``, `ab;` and `1.0\n`. The second chunk is
not the last one and does not end with a newline, and the only line of the
file has its bytes in two chunks; read chunk by chunk the file gives the
empty global map, read as one chunk it gives one reading for `ab`. -/
theorem splitter_divides_line :
    Splitter 3 (asciiBytes "ab;1.0\n")
      = some ([[], asciiBytes "ab;", asciiBytes "1.0\n"], []) ∧
    Evaluate 3 (asciiBytes "ab;1.0\n") = some [] ∧
    ChunkReader (asciiBytes "ab;1.0\n") = some [(asciiBytes "ab", ⟨10, 10, 10, 1⟩)] := by
  refine ⟨by decide, by decide, by decide⟩

/-- C7: for every input and every block size of at least one byte the
splitter ends, and the chunks it sent, in order, followed by the leftover it
holds at the end of the stream, are the input; when the input is empty or ends
with a newline that leftover is empty and the chunks alone are the input. -/
theorem splitter_conserves_bytes (blockSize : Nat) (input : List Byte) (hB : 1 ≤ blockSize) :
    ∃ chunks last, Splitter blockSize input = some (chunks, last) ∧
      chunks.flatten ++ last = input ∧
      ((input = [] ∨ EndsWithNewline input) → last = [] ∧ chunks.flatten = input) :=
  Splitter_total blockSize input hB

/-- C7, witness: the file `ab;1.0\nb;2.0` read in blocks of 3 bytes. -/
theorem splitter_conserves_bytes_witness :
    1 ≤ 3 ∧
    Splitter 3 (asciiBytes "ab;1.0\nb;2.0")
      = some ([[], asciiBytes "ab;", asciiBytes "1.0\n", asciiBytes "b;"], asciiBytes "2.0") ∧
    ∃ chunks last, Splitter 3 (asciiBytes "ab;1.0\nb;2.0") = some (chunks, last) ∧
      chunks.flatten ++ last = asciiBytes "ab;1.0\nb;2.0" ∧
      ((asciiBytes "ab;1.0\nb;2.0" = [] ∨ EndsWithNewline (asciiBytes "ab;1.0\nb;2.0")) →
        last = [] ∧ chunks.flatten = asciiBytes "ab;1.0\nb;2.0") :=
  ⟨by decide, by decide, splitter_conserves_bytes 3 (asciiBytes "ab;1.0\nb;2.0") (by decide)⟩

/-- C8, the code at the failing inputs of the claim: the line `45.6` without a
semicolon is counted as a second reading of `Hamburg`, and after the line
`;12.3` with an empty name the reading of `Berlin` is stored under the key
`12.3Berlin`; in both cases the map differs from the map of the chunk without
the malformed line. -/
theorem malformed_line_changes_map :
    ChunkReader (asciiBytes "Hamburg;12.3\n45.6\n")
      = some [(asciiBytes "Hamburg", ⟨123, 456, 579, 2⟩)] ∧
    ChunkReader (asciiBytes "Hamburg;12.3\n")
      = some [(asciiBytes "Hamburg", ⟨123, 123, 123, 1⟩)] ∧
    ChunkReader (asciiBytes ";12.3\nBerlin;1.0\n")
      = some [(asciiBytes "12.3Berlin", ⟨10, 10, 10, 1⟩)] ∧
    ChunkReader (asciiBytes "Berlin;1.0\n")
      = some [(asciiBytes "Berlin", ⟨10, 10, 10, 1⟩)] := by
  refine ⟨by decide, by decide, by decide, by decide⟩

/-- C9 (amended): every aggregate of the map `ChunkReader` sends for a chunk
(a Go slice, shorter than 2^63 bytes) satisfies `Min ≤ Max` and `Count ≥ 1`;
and the merge of a partial map into the global map keeps this invariant
whenever, for every station of both maps, the sum of the two Counts fits an
`int64`. -/
theorem aggregate_invariant (buf : List Byte) (m cities t : CityMap)
    (hlen : buf.length < 9223372036854775808) (hm : ChunkReader buf = some m)
    (hc : GoodMap cities) (ht : GoodMap t) (hnd : NodupKeys t) (hfit : CountsFit cities t) :
    GoodMap m ∧ GoodMap (mergeMap cities t) :=
  ⟨ChunkReader_good buf m hlen hm, mergeMap_good cities t hc ht hnd hfit⟩

/-- C9, witness: the chunk `Hamburg;12.3\nBerlin;-5.5\nHamburg;8.0\n`, and two
maps with the common station `a`. -/
theorem aggregate_invariant_witness :
    ChunkReader (asciiBytes "Hamburg;12.3\nBerlin;-5.5\nHamburg;8.0\n")
      = some [(asciiBytes "Hamburg", ⟨80, 123, 203, 2⟩), (asciiBytes "Berlin", ⟨-55, -55, -55, 1⟩)] ∧
    GoodMap [(asciiBytes "Hamburg", ⟨80, 123, 203, 2⟩), (asciiBytes "Berlin", ⟨-55, -55, -55, 1⟩)] ∧
    GoodMap (mergeMap [(asciiBytes "a", ⟨10, 30, 40, 2⟩), (asciiBytes "b", ⟨5, 5, 5, 1⟩)]
      [(asciiBytes "a", ⟨-7, 12, 5, 2⟩)]) :=
  ⟨by decide,
   aggregate_invariant (asciiBytes "Hamburg;12.3\nBerlin;-5.5\nHamburg;8.0\n")
    [(asciiBytes "Hamburg", ⟨80, 123, 203, 2⟩), (asciiBytes "Berlin", ⟨-55, -55, -55, 1⟩)]
    [(asciiBytes "a", ⟨10, 30, 40, 2⟩), (asciiBytes "b", ⟨5, 5, 5, 1⟩)]
    [(asciiBytes "a", ⟨-7, 12, 5, 2⟩)]
    (by decide) (by decide) (GoodMap_of_entries _ (by decide)) (GoodMap_of_entries _ (by decide))
    (by decide) (CountsFit_of_entries _ _ (by decide))⟩

/-- C9, counterexample to the claim as stated: both maps satisfy the
invariant, and the merge, which adds the Counts 2^63 - 1 and 1 as `int64`,
leaves the station with the Count -2^63. -/
theorem reducer_count_wraps :
    GoodMap [(asciiBytes "a", ⟨0, 0, 0, 9223372036854775807⟩)] ∧
    GoodMap [(asciiBytes "a", ⟨0, 0, 0, 1⟩)] ∧
    mergeMap [(asciiBytes "a", ⟨0, 0, 0, 9223372036854775807⟩)] [(asciiBytes "a", ⟨0, 0, 0, 1⟩)]
      = [(asciiBytes "a", ⟨0, 0, 0, -9223372036854775808⟩)] ∧
    ¬ GoodMap (mergeMap [(asciiBytes "a", ⟨0, 0, 0, 9223372036854775807⟩)]
      [(asciiBytes "a", ⟨0, 0, 0, 1⟩)]) := by
  refine ⟨GoodMap_of_entries _ (by decide), GoodMap_of_entries _ (by decide), by decide, ?_⟩
  intro h
  have := h (asciiBytes "a") ⟨0, 0, 0, -9223372036854775808⟩ (by decide)
  exact absurd this (by decide)


/-- C3: chunk-boundary independence. For every file of well-formed records
and every two block sizes X and Y, each at least one byte and at least the
length of the longest line with its newline, splitting the file with the
splitter of `Evaluate`, running `ChunkReader` on each chunk and merging the
partial maps with the reducer gives for X the same global map as for Y, and
both are the map `ChunkReader` sends for the whole file as one chunk. -/
theorem chunk_boundary_independence (rs : List Record) (X Y : Nat)
    (hwf : ∀ r ∈ rs, r.WellFormed) (hX0 : 1 ≤ X) (hY0 : 1 ≤ Y)
    (hX : ∀ r ∈ rs, r.bytes.length ≤ X) (hY : ∀ r ∈ rs, r.bytes.length ≤ Y) :
    ∃ whole mX mY, ChunkReader (encodeRecords rs) = some whole ∧
      Evaluate X (encodeRecords rs) = some mX ∧ Evaluate Y (encodeRecords rs) = some mY ∧
      MapEq mX mY ∧ MapEq mX whole ∧ MapEq mY whole := by
  have hgood : ∀ l ∈ rs.map Record.line, GoodLine l := by
    intro l hl
    obtain ⟨r, hr, rfl⟩ := List.mem_map.1 hl
    exact r.goodLine (hwf r hr)
  have hbound : ∀ B, (∀ r ∈ rs, r.bytes.length ≤ B) →
      ∀ l ∈ rs.map Record.line, (lineBytes l.1 l.2).length ≤ B := by
    intro B hB l hl
    obtain ⟨r, hr, rfl⟩ := List.mem_map.1 hl
    exact hB r hr
  obtain ⟨w1, mX, hw1, hmX, heX⟩ := Evaluate_lines X (rs.map Record.line) hX0 hgood (hbound X hX)
  obtain ⟨w2, mY, hw2, hmY, heY⟩ := Evaluate_lines Y (rs.map Record.line) hY0 hgood (hbound Y hY)
  rw [encodeLines_records] at hw1 hmX hw2 hmY
  have hw : w2 = w1 := by
    rw [hw1] at hw2
    exact (Option.some.inj hw2).symm
  subst hw
  exact ⟨w2, mX, mY, hw1, hmX, hmY, fun key => (heX key).trans (heY key).symm, heX, heY⟩

/-- C3, witness: the file `Hamburg;12.3\nBerlin;-5.5\nHamburg;8.0\n` with
blocks of 13 bytes (its longest line) and of 40 bytes (more than the file). -/
theorem chunk_boundary_independence_witness :
    (∀ r ∈ hamburgBerlin, r.WellFormed) ∧
    (∀ r ∈ hamburgBerlin, r.bytes.length ≤ 13) ∧ (∀ r ∈ hamburgBerlin, r.bytes.length ≤ 40) ∧
    Splitter 13 (encodeRecords hamburgBerlin)
      = some ([asciiBytes "Hamburg;12.3\n", asciiBytes "Berlin;-5.5\n",
          asciiBytes "Hamburg;8.0\n"], []) ∧
    Splitter 40 (encodeRecords hamburgBerlin)
      = some ([asciiBytes "Hamburg;12.3\nBerlin;-5.5\nHamburg;8.0\n"], []) ∧
    ∃ whole mX mY, ChunkReader (encodeRecords hamburgBerlin) = some whole ∧
      Evaluate 13 (encodeRecords hamburgBerlin) = some mX ∧
      Evaluate 40 (encodeRecords hamburgBerlin) = some mY ∧
      MapEq mX mY ∧ MapEq mX whole ∧ MapEq mY whole :=
  ⟨by decide, by decide, by decide, by decide, by decide,
    chunk_boundary_independence hamburgBerlin 13 40 (by decide) (by decide) (by decide)
      (by decide) (by decide)⟩

/-- C10: for every input and every block size of at least one byte, in
particular for an input whose last byte is not a newline, the bytes after the
last newline of the input add nothing: splitting, running `ChunkReader` on
every chunk and merging gives the same result for the input as for the input
cut just after its last newline (the empty input when it has no newline). The
result is a global map, or on both sides the run-time failure of a
conversion. -/
theorem trailing_partial_line_dropped (blockSize : Nat) (input : List Byte)
    (hB : 1 ≤ blockSize) :
    Evaluate blockSize input = Evaluate blockSize (truncateAfterLastNewline input) :=
  Evaluate_truncate blockSize input hB

/-- C10, witness: the file `a;1.0\nb;2.0` read in blocks of 4 bytes; the
record `b;2.0` without its newline is in no aggregate. -/
theorem trailing_partial_line_dropped_witness :
    1 ≤ 4 ∧
    truncateAfterLastNewline (asciiBytes "a;1.0\nb;2.0") = asciiBytes "a;1.0\n" ∧
    Evaluate 4 (asciiBytes "a;1.0\nb;2.0") = some [(asciiBytes "a", ⟨10, 10, 10, 1⟩)] ∧
    Evaluate 4 (asciiBytes "a;1.0\nb;2.0")
      = Evaluate 4 (truncateAfterLastNewline (asciiBytes "a;1.0\nb;2.0")) :=
  ⟨by decide, by decide, by decide,
    trailing_partial_line_dropped 4 (asciiBytes "a;1.0\nb;2.0") (by decide)⟩


/-- C11 (amended): for every value field of two bytes or more,
`ConvertStringToInt64` discards the parse failure and returns 0 whenever the
text left once the byte before the last is removed is refused by
`strconv.ParseInt` as a syntax error, that is when after one optional sign it
is empty or has a byte that is no digit before its digits exceed the range of
`uint64`. -/
theorem refused_value_gives_zero (input : List Byte) (hlen : 2 ≤ input.length)
    (h : SyntaxRefused (cutText input)) : ConvertStringToInt64 input = some 0 :=
  ConvertStringToInt64_refused input hlen h

/-- C11, witness: the fields `1.25` and `abc`, which become `1.5` and `ac`. -/
theorem refused_value_gives_zero_witness :
    cutText (asciiBytes "1.25") = asciiBytes "1.5" ∧
    ConvertStringToInt64 (asciiBytes "1.25") = some 0 ∧
    cutText (asciiBytes "abc") = asciiBytes "ac" ∧
    ConvertStringToInt64 (asciiBytes "abc") = some 0 :=
  ⟨by decide,
   refused_value_gives_zero (asciiBytes "1.25") (by decide)
    ⟨[], [1], asciiBytes ".5", by decide, Or.inl rfl, by decide, by decide,
      ⟨by decide, fun _ h => absurd h (by decide)⟩⟩,
   by decide,
   refused_value_gives_zero (asciiBytes "abc") (by decide)
    ⟨[], [], asciiBytes "ac", by decide, Or.inl rfl, by decide, by decide,
      ⟨by decide, fun _ _ => by decide⟩⟩⟩

/-- C11, counterexample to the claim as stated: the fields `123` and
`99999999999999999999` are not empty and do not match `-?[0-9]+\.[0-9]` (they
have no `.`), and `ConvertStringToInt64` returns 13 for the first and the
largest `int64` for the second, not 0. -/
theorem unmatched_value_not_zero :
    asciiBytes "123" ≠ [] ∧
    (¬ ∃ t : Temperature, t.WellFormed ∧ t.bytes = asciiBytes "123") ∧
    ConvertStringToInt64 (asciiBytes "123") = some 13 ∧
    (¬ ∃ t : Temperature, t.WellFormed ∧ t.bytes = asciiBytes "99999999999999999999") ∧
    ConvertStringToInt64 (asciiBytes "99999999999999999999") = some 9223372036854775807 := by
  refine ⟨by decide, ?_, by decide, ?_, by decide⟩
  · rintro ⟨t, _, ht⟩
    have := t.dot_mem_bytes
    rw [ht] at this
    exact absurd this (by decide)
  · rintro ⟨t, _, ht⟩
    have := t.dot_mem_bytes
    rw [ht] at this
    exact absurd this (by decide)

/-- C12: a line `<name>;\n` with an empty value, put at any line boundary of
a chunk of well-formed records, changes nothing: `ChunkReader` sends the same
map with the line and without it, so the line is counted for no station and
creates no key. The name has no `;` and no newline (it may even be empty). -/
theorem empty_value_line_skipped (rs1 rs2 : List Record) (name : List Byte)
    (h1 : ∀ r ∈ rs1, r.WellFormed) (h2 : ∀ r ∈ rs2, r.WellFormed)
    (h59 : 59 ∉ name) (h10 : 10 ∉ name) :
    ∃ m, ChunkReader (encodeRecords rs1 ++ lineBytes name [] ++ encodeRecords rs2) = some m ∧
      ChunkReader (encodeRecords (rs1 ++ rs2)) = some m := by
  have hg : ∀ rs : List Record, (∀ r ∈ rs, r.WellFormed) →
      ∀ l ∈ rs.map Record.line, GoodLine l := by
    intro rs hrs l hl
    obtain ⟨r, hr, rfl⟩ := List.mem_map.1 hl
    exact r.goodLine (hrs r hr)
  obtain ⟨m, hm1, hm2⟩ := ChunkReader_insert_empty_value (rs1.map Record.line)
    (rs2.map Record.line) name (hg rs1 h1) (hg rs2 h2) h59 h10
  rw [← List.map_append] at hm2
  rw [encodeLines_records] at hm1 hm2
  rw [encodeLines_records] at hm1
  exact ⟨m, hm1, hm2⟩

/-- C12, witness: the line `Oslo;\n` after the first record of the chunk
`Hamburg;12.3\nBerlin;-5.5\nHamburg;8.0\n`. -/
theorem empty_value_line_skipped_witness :
    encodeRecords (hamburgBerlin.take 1) ++ lineBytes (asciiBytes "Oslo") []
        ++ encodeRecords (hamburgBerlin.drop 1)
      = asciiBytes "Hamburg;12.3\nOslo;\nBerlin;-5.5\nHamburg;8.0\n" ∧
    ChunkReader (asciiBytes "Hamburg;12.3\nOslo;\nBerlin;-5.5\nHamburg;8.0\n")
      = some [(asciiBytes "Hamburg", ⟨80, 123, 203, 2⟩), (asciiBytes "Berlin", ⟨-55, -55, -55, 1⟩)] ∧
    ∃ m, ChunkReader (encodeRecords (hamburgBerlin.take 1) ++ lineBytes (asciiBytes "Oslo") []
        ++ encodeRecords (hamburgBerlin.drop 1)) = some m ∧
      ChunkReader (encodeRecords (hamburgBerlin.take 1 ++ hamburgBerlin.drop 1)) = some m :=
  ⟨by decide, by decide,
    empty_value_line_skipped (hamburgBerlin.take 1) (hamburgBerlin.drop 1) (asciiBytes "Oslo")
      (by decide) (by decide) (by decide) (by decide)⟩

/-- C13, the code at the failing input: on a machine with one core the loop
of line 89 starts no worker, where the claim has max(1, 0) = 1; for every core
count n ≥ 1 the loop starts n - 1 workers. -/
theorem single_core_starts_no_worker :
    workersStarted 1 = some 0 ∧ max 1 ((1 : Int) - 1) = 1 ∧
    ∀ n : Int, 1 ≤ n → workersStarted n = some (n - 1).toNat :=
  ⟨by decide, by decide, fun n _ => workersStarted_eq n⟩

/-- C14: for every byte chunk, well-formed or not, every key of the map
`ChunkReader` sends is a byte string that is not empty and has neither `;` nor
a newline. -/
theorem chunkReader_keys_wellFormed (buf : List Byte) (m : CityMap)
    (hm : ChunkReader buf = some m) :
    ∀ key ∈ m.map Prod.fst, key ≠ [] ∧ 59 ∉ key ∧ 10 ∉ key :=
  ChunkReader_keys buf m hm

/-- C14, witness: the malformed chunk `;12.3\nBerlin;1.0\n`, whose only key
is `12.3Berlin`. -/
theorem chunkReader_keys_wellFormed_witness :
    ChunkReader (asciiBytes ";12.3\nBerlin;1.0\n")
      = some [(asciiBytes "12.3Berlin", ⟨10, 10, 10, 1⟩)] ∧
    ∀ key ∈ [(asciiBytes "12.3Berlin", (⟨10, 10, 10, 1⟩ : Weather))].map Prod.fst,
      key ≠ [] ∧ 59 ∉ key ∧ 10 ∉ key :=
  ⟨by decide,
    chunkReader_keys_wellFormed (asciiBytes ";12.3\nBerlin;1.0\n")
      [(asciiBytes "12.3Berlin", ⟨10, 10, 10, 1⟩)] (by decide)⟩

/-- C15: `ConvertStringToInt64` fails at run time exactly for inputs shorter
than two bytes; the values that reach the conversion are never empty; and
`ChunkReader` completes without a run-time failure on a chunk exactly when no
value that reaches the conversion has one byte. The chunk `a;5\n` fails. -/
theorem chunkReader_fails_iff_one_byte_value :
    (∀ input : List Byte, ConvertStringToInt64 input = none ↔ input.length < 2) ∧
    (∀ buf : List Byte, ∀ v ∈ conversionInputs buf, v ≠ []) ∧
    (∀ buf : List Byte, ChunkReader buf ≠ none ↔ ∀ v ∈ conversionInputs buf, v.length ≠ 1) ∧
    conversionInputs (asciiBytes "a;5\n") = [asciiBytes "5"] ∧
    ChunkReader (asciiBytes "a;5\n") = none :=
  ⟨ConvertStringToInt64_eq_none_iff, fun buf => conversionInputsFrom_ne_nil [] [] buf,
    ChunkReader_isSome_iff, by decide, by decide⟩

/-- C16 (amended): for every chunk of well-formed records in which the sum of
the readings of each station fits an `int64`, every aggregate `ChunkReader`
sends satisfies `Min × Count ≤ Sum ≤ Max × Count`; the combine of the reducer
keeps this for two aggregates with `Count ≥ 1` when neither the sum of their
Sums nor the sum of their Counts overflows an `int64`; and for such aggregates
the quotient `Sum / Count`, truncated toward zero, is computed without failure
and lies between Min and Max, and the mean `WriteWeatherStats` prints,
`math.Round(float64(Sum / Count))`, is that quotient whenever its absolute
value is at most 2^53. -/
theorem mean_between_extremes (rs : List Record) (a b : Weather)
    (hwf : ∀ r ∈ rs, r.WellFormed ∧ InInt64 r.temp.scaled)
    (hlen : (encodeRecords rs).length < 9223372036854775808)
    (hsum : ∀ r ∈ rs, InInt64 (readingsOf r.name rs).sum)
    (ha : GoodWeather a) (hb : GoodWeather b) (hma : MeanBounds a) (hmb : MeanBounds b)
    (hs : InInt64 (a.Sum + b.Sum)) (hc : a.Count + b.Count ≤ 9223372036854775807) :
    (∃ m, ChunkReader (encodeRecords rs) = some m ∧
      ∀ name w, mapGet m name = some w → MeanBounds w ∧ MeanBetween w) ∧
    MeanBounds (combine a b) ∧ MeanBetween (combine a b) := by
  obtain ⟨m, hm, hall⟩ := ChunkReader_meanBounds rs hwf hlen hsum
  have hcm := combine_meanBounds a b ha hb hma hmb hs hc
  have hcg := combine_good a b ha hb hc
  have hcs : InInt64 (combine a b).Sum := by
    rw [combine_Sum]; exact wrapInt64_inInt64 _
  refine ⟨⟨m, hm, fun name w hw => ?_⟩, hcm, meanBetween_of_bounds _ hcg hcm hcs⟩
  obtain ⟨hg, hmb', hsw⟩ := hall name w hw
  exact ⟨hmb', meanBetween_of_bounds w hg hmb' hsw⟩

/-- C16, witness: the chunk `Hamburg;12.3\nBerlin;-5.5\nHamburg;8.0\n` and the
aggregates {80, 123, 203, 2} and {10, 30, 40, 2}. -/
theorem mean_between_extremes_witness :
    ChunkReader (asciiBytes "Hamburg;12.3\nBerlin;-5.5\nHamburg;8.0\n")
      = some [(asciiBytes "Hamburg", ⟨80, 123, 203, 2⟩), (asciiBytes "Berlin", ⟨-55, -55, -55, 1⟩)] ∧
    printedMean ⟨80, 123, 203, 2⟩ = some 101 ∧ printedMean ⟨-55, -55, -55, 1⟩ = some (-55) ∧
    combine ⟨80, 123, 203, 2⟩ ⟨10, 30, 40, 2⟩ = ⟨10, 123, 243, 4⟩ ∧
    printedMean ⟨10, 123, 243, 4⟩ = some 60 ∧
    MeanBounds (combine ⟨80, 123, 203, 2⟩ ⟨10, 30, 40, 2⟩) ∧
    MeanBetween (combine ⟨80, 123, 203, 2⟩ ⟨10, 30, 40, 2⟩) :=
  ⟨by decide, by decide, by decide, by decide, by decide,
    (mean_between_extremes hamburgBerlin ⟨80, 123, 203, 2⟩ ⟨10, 30, 40, 2⟩ (by decide)
      (by decide) (by decide) (by decide) (by decide) (by decide) (by decide) (by decide)
      (by decide)).2⟩

/-- C16, counterexamples to the claim as stated. First, the chunk
`a;900719925474099.3\n` is one well-formed record without any overflow: its
aggregate has Min = Max = Sum = 2^53 + 1 and Count 1, the quotient is 2^53 + 1,
and the mean printed, its conversion to `float64`, is 2^53, below Min. Second,
two aggregates with `Min ≤ Max`, `Count ≥ 1` and
`Min × Count ≤ Sum ≤ Max × Count` whose Sums add up without overflow: their
Counts 2^63 - 1 add up to -2 as `int64`, the combine has `Sum > Max × Count`,
and both its quotient and the mean printed for it are below its Min. -/
theorem mean_outside_extremes :
    ((∀ r ∈ roundingRecords, r.WellFormed ∧ InInt64 r.temp.scaled) ∧
      encodeRecords roundingRecords = asciiBytes "a;900719925474099.3\n" ∧
      ChunkReader (encodeRecords roundingRecords)
        = some [(asciiBytes "a",
            ⟨9007199254740993, 9007199254740993, 9007199254740993, 1⟩)] ∧
      MeanBounds ⟨9007199254740993, 9007199254740993, 9007199254740993, 1⟩ ∧
      meanQuotient ⟨9007199254740993, 9007199254740993, 9007199254740993, 1⟩
        = some 9007199254740993 ∧
      printedMean ⟨9007199254740993, 9007199254740993, 9007199254740993, 1⟩
        = some 9007199254740992 ∧
      (9007199254740992 : Int) < 9007199254740993) ∧
    (GoodWeather ⟨-1, 1, 4611686018427387903, 9223372036854775807⟩ ∧
      MeanBounds ⟨-1, 1, 4611686018427387903, 9223372036854775807⟩ ∧
      InInt64 ((4611686018427387903 : Int) + 4611686018427387903) ∧
      combine ⟨-1, 1, 4611686018427387903, 9223372036854775807⟩
          ⟨-1, 1, 4611686018427387903, 9223372036854775807⟩
        = ⟨-1, 1, 9223372036854775806, -2⟩ ∧
      ¬ MeanBounds ⟨-1, 1, 9223372036854775806, -2⟩ ∧
      meanQuotient ⟨-1, 1, 9223372036854775806, -2⟩ = some (-4611686018427387903) ∧
      printedMean ⟨-1, 1, 9223372036854775806, -2⟩ = some (-4611686018427387904) ∧
      (-4611686018427387903 : Int) < -1) := by
  refine ⟨⟨by decide, by decide, by decide, by decide, by decide, by decide, by decide⟩,
    ⟨by decide, by decide, by decide, by decide, by decide, by decide, by decide, by decide⟩⟩

end OneBRC
